import Mathlib

/-!
Verification of the `structop` differentiable dynamic-programming library.

The source operates on IEEE `f64`.  Following the specification, which states
every numeric property "up to floating-point error", we model `f64` arithmetic
by exact real arithmetic.  The only non-real `f64` value that the validated
code paths can produce is `+∞` (the DP encoding of "unreachable"), so an `f64`
cost value is modelled by the type `F` below: either a finite real or `+∞`.
In the negated (`-a/γ`) space the corresponding extra value is `-∞`, modelled
by `Option ℝ` with `none` standing for `-∞`; `Real.exp` at `-∞` is `0`, which
is exactly what `f64::exp` returns there.  `γ` is modelled as a real, so the
source's `!gamma.is_finite()` and `!cost.is_finite()` checks are vacuously
false in the model and the corresponding branches are dropped.
-/

noncomputable section

open Classical

/-- An `f64` value appearing in the dynamic programs: a finite real or `+∞`. -/
inductive F where
  | fin : ℝ → F
  | inf : F

namespace F

/-- Addition of a finite real to an `f64` DP value (`d + r` in the source;
`d + ∞ = ∞` in `f64`). -/
def add (d : ℝ) : F → F
  | .fin r => .fin (d + r)
  | .inf => .inf

/-- Hard minimum, mirroring `f64::min` on reals-or-`+∞`. -/
def minv : F → F → F
  | .inf, b => b
  | .fin p, .inf => .fin p
  | .fin p, .fin q => .fin (min p q)

/-- Order on DP values: finite reals ordered as usual, `+∞` on top. -/
def le : F → F → Prop
  | _, .inf => True
  | .inf, .fin _ => False
  | .fin p, .fin q => p ≤ q

instance : LE F := ⟨F.le⟩

/-- The Gibbs weight `exp (-a/γ)` of a candidate value; `0` for `+∞`. -/
def wt (γ : ℝ) : F → ℝ
  | .fin r => Real.exp (-r / γ)
  | .inf => 0

end F

/-- The stabilised-space image `-a/γ` of a candidate (`none` is `-∞`, the
image of a `+∞` candidate under division by a positive finite `γ`). -/
def negDiv (γ : ℝ) : F → Option ℝ
  | .fin a => some (-a / γ)
  | .inf => none

/-- `f64::max` on the stabilised space (`max` with `-∞` as neutral element),
as iterated by the `m` accumulation loops in `softmin3` and `log_sum_exp`. -/
def omax : Option ℝ → Option ℝ → Option ℝ
  | none, y => y
  | some x, none => some x
  | some x, some y => some (max x y)

/-- One stabilised summand `exp (x - m)`; a `-∞` entry contributes `exp (-∞) = 0`,
exactly as in `f64`. -/
def oexp (m : ℝ) : Option ℝ → ℝ
  | none => 0
  | some x => Real.exp (x - m)

/-- Embedding of `softmin3` from `src/soft_dtw.rs`: the three candidates are
mapped to `-aᵢ/γ`, the running `f64::max` is taken, the all-`+∞` case returns
`+∞`, and otherwise the stabilised log-sum-exp is assembled. -/
def softmin3 (γ : ℝ) (a b c : F) : F :=
  let xa := negDiv γ a
  let xb := negDiv γ b
  let xc := negDiv γ c
  match omax (omax xa xb) xc with
  | none => .inf
  | some m => .fin (-γ * (m + Real.log (oexp m xa + oexp m xb + oexp m xc)))

/-- Embedding of `log_sum_exp` from `src/soft_shortest_path.rs` on the
stabilised space (`none` is `-∞`): running max, early `-∞` return, then
`m + log Σ exp (xᵢ - m)`. -/
def log_sum_exp (xs : List (Option ℝ)) : Option ℝ :=
  match xs.foldl omax none with
  | none => none
  | some m => some (m + Real.log ((xs.map (oexp m)).sum))

/-- Embedding of `softmin_gamma` from `src/soft_shortest_path.rs`: map the
candidates to `-aᵢ/γ`, apply `log_sum_exp`, and turn a `-∞` result back into
`+∞`. -/
def softmin_gamma (γ : ℝ) (candidates : List F) : F :=
  match log_sum_exp (candidates.map (negDiv γ)) with
  | none => .inf
  | some l => .fin (-γ * l)

/-- Minimum element of a list of reals (`0` for the empty list, which is never
used); specification-side helper for stating the softmin bounds. -/
def listMin : List ℝ → ℝ
  | [] => 0
  | a :: l => l.foldl min a

end

section CoreLemmas

theorem omax_none_left (y : Option ℝ) : omax none y = y := by
  cases y <;> rfl

theorem omax_eq_none {x y : Option ℝ} : omax x y = none ↔ x = none ∧ y = none := by
  cases x <;> cases y <;> simp [omax]

theorem foldl_omax_acc (l : List (Option ℝ)) :
    ∀ acc, l.foldl omax acc = omax acc (l.foldl omax none) := by
  induction l with
  | nil => intro acc; cases acc <;> rfl
  | cons x l ih =>
    intro acc
    rw [List.foldl_cons, List.foldl_cons, omax_none_left, ih (omax acc x), ih x]
    cases acc <;> cases x <;> cases l.foldl omax none <;>
      simp [omax, max_assoc]

theorem foldl_omax_cons (x : Option ℝ) (l : List (Option ℝ)) :
    (x :: l).foldl omax none = omax x (l.foldl omax none) := by
  rw [List.foldl_cons, omax_none_left, foldl_omax_acc]

theorem foldl_omax_eq_none {l : List (Option ℝ)} :
    l.foldl omax none = none ↔ ∀ x ∈ l, x = none := by
  induction l with
  | nil => simp
  | cons x l ih =>
    rw [foldl_omax_cons, omax_eq_none]
    simp [ih]

theorem foldl_omax_mem {l : List (Option ℝ)} :
    ∀ {m : ℝ}, l.foldl omax none = some m → some m ∈ l := by
  induction l with
  | nil => intro m h; simp [List.foldl] at h
  | cons x l ih =>
    intro m h
    rw [foldl_omax_cons] at h
    cases x with
    | none =>
      rw [omax_none_left] at h
      exact List.mem_cons_of_mem _ (ih h)
    | some a =>
      cases hl : l.foldl omax none with
      | none =>
        rw [hl] at h
        simp only [omax, Option.some.injEq] at h
        simp [h]
      | some b =>
        rw [hl] at h
        simp only [omax, Option.some.injEq] at h
        rcases le_total a b with hab | hab
        · rw [max_eq_right hab] at h
          exact List.mem_cons_of_mem _ (h ▸ ih hl)
        · rw [max_eq_left hab] at h
          simp [h]

theorem foldl_omax_ge {l : List (Option ℝ)} :
    ∀ {m : ℝ}, l.foldl omax none = some m → ∀ r : ℝ, some r ∈ l → r ≤ m := by
  induction l with
  | nil => simp
  | cons x l ih =>
    intro m h r hr
    rw [foldl_omax_cons] at h
    have hm := List.mem_cons.mp hr
    clear hr
    rcases hm with hr | hr
    · subst hr
      cases hl : l.foldl omax none with
      | none =>
        rw [hl] at h
        simp only [omax, Option.some.injEq] at h
        simp [h]
      | some b =>
        rw [hl] at h
        simp only [omax, Option.some.injEq] at h
        rw [← h]
        exact le_max_left _ _
    · cases x with
      | none =>
        rw [omax_none_left] at h
        exact ih h r hr
      | some a =>
        cases hl : l.foldl omax none with
        | none =>
          rw [foldl_omax_eq_none] at hl
          exact absurd (hl _ hr) (by simp)
        | some b =>
          rw [hl] at h
          simp only [omax, Option.some.injEq] at h
          have hb := ih hl r hr
          rw [← h]
          exact hb.trans (le_max_right _ _)

theorem sum_map_single_le {α : Type} {l : List α} {f : α → ℝ}
    (h0 : ∀ x ∈ l, 0 ≤ f x) {x : α} (hx : x ∈ l) : f x ≤ (l.map f).sum := by
  induction l with
  | nil => simp at hx
  | cons a l ih =>
    rcases List.mem_cons.mp hx with hx | hx
    · subst hx
      simp only [List.map_cons, List.sum_cons]
      have : 0 ≤ (l.map f).sum :=
        List.sum_nonneg (by
          intro y hy
          obtain ⟨z, hz, rfl⟩ := List.mem_map.mp hy
          exact h0 z (List.mem_cons_of_mem _ hz))
      linarith
    · simp only [List.map_cons, List.sum_cons]
      have := ih (fun y hy => h0 y (List.mem_cons_of_mem _ hy)) hx
      have h0a := h0 a (List.mem_cons_self _ _)
      linarith

/-- The weight sum `Σᵢ exp (-aᵢ/γ)` of a candidate list (`+∞` contributing `0`). -/
noncomputable def sumW (γ : ℝ) (l : List F) : ℝ := (l.map (F.wt γ)).sum

theorem wt_nonneg (γ : ℝ) (c : F) : 0 ≤ F.wt γ c := by
  cases c with
  | fin r => exact (Real.exp_pos _).le
  | inf => exact le_refl 0

theorem sumW_nonneg (γ : ℝ) (l : List F) : 0 ≤ sumW γ l :=
  List.sum_nonneg (by
    intro y hy
    obtain ⟨z, _, rfl⟩ := List.mem_map.mp hy
    exact wt_nonneg γ z)

theorem wt_le_sumW {γ : ℝ} {l : List F} {c : F} (hc : c ∈ l) :
    F.wt γ c ≤ sumW γ l :=
  sum_map_single_le (fun x _ => wt_nonneg γ x) hc

theorem sumW_pos {γ : ℝ} {l : List F} {r : ℝ} (h : F.fin r ∈ l) :
    0 < sumW γ l :=
  lt_of_lt_of_le (Real.exp_pos _) (wt_le_sumW h)

theorem negDiv_eq_none {γ : ℝ} {c : F} : negDiv γ c = none ↔ c = .inf := by
  cases c <;> simp [negDiv]

/-- On a candidate list that contains at least one finite value, the embedded
stabilised `softmin_gamma` collapses to the mathematical
`-γ log Σᵢ exp (-aᵢ/γ)` (with `+∞` candidates contributing `0`). -/
theorem softmin_gamma_eq_log {γ : ℝ} {l : List F} {r : ℝ}
    (h : F.fin r ∈ l) :
    softmin_gamma γ l = .fin (-γ * Real.log (sumW γ l)) := by
  have hS : 0 < sumW γ l := sumW_pos h
  have hmem : some (-r / γ) ∈ l.map (negDiv γ) :=
    List.mem_map.mpr ⟨F.fin r, h, rfl⟩
  cases hmax : (l.map (negDiv γ)).foldl omax none with
  | none =>
    rw [foldl_omax_eq_none] at hmax
    exact absurd (hmax _ hmem) (by simp)
  | some m =>
    have hsum : ((l.map (negDiv γ)).map (oexp m)).sum = Real.exp (-m) * sumW γ l := by
      rw [List.map_map]
      have : ∀ c : F, (oexp m ∘ negDiv γ) c = Real.exp (-m) * F.wt γ c := by
        intro c
        cases c with
        | fin a =>
          simp only [Function.comp_apply, negDiv, oexp, F.wt]
          rw [← Real.exp_add]
          ring_nf
        | inf => simp [negDiv, oexp, F.wt]
      calc (l.map (oexp m ∘ negDiv γ)).sum
          = (l.map fun c => Real.exp (-m) * F.wt γ c).sum := by
            congr 1
            exact List.map_congr_left (fun c _ => this c)
        _ = Real.exp (-m) * sumW γ l := List.sum_map_mul_left _ _ _
    have hlog : m + Real.log (((l.map (negDiv γ)).map (oexp m)).sum)
        = Real.log (sumW γ l) := by
      rw [hsum, Real.log_mul (Real.exp_ne_zero _) (ne_of_gt hS), Real.log_exp]
      ring
    simp only [softmin_gamma, log_sum_exp, hmax, hlog]

/-- On an all-`+∞` candidate list, the embedded `softmin_gamma` returns `+∞`. -/
theorem softmin_gamma_all_inf {γ : ℝ} {l : List F}
    (h : ∀ c ∈ l, c = F.inf) : softmin_gamma γ l = .inf := by
  have : (l.map (negDiv γ)).foldl omax none = none := by
    rw [foldl_omax_eq_none]
    intro x hx
    obtain ⟨c, hc, rfl⟩ := List.mem_map.mp hx
    rw [negDiv_eq_none]
    exact h c hc
  simp only [softmin_gamma, log_sum_exp, this]

/-- The embedded `softmin3` agrees with `softmin_gamma` on the three-element
candidate list: both run the same stabilised log-sum-exp. -/
theorem softmin3_eq_gamma (γ : ℝ) (a b c : F) :
    softmin3 γ a b c = softmin_gamma γ [a, b, c] := by
  have hfold : ([a, b, c].map (negDiv γ)).foldl omax none
      = omax (omax (negDiv γ a) (negDiv γ b)) (negDiv γ c) := by
    simp only [List.map_cons, List.map_nil, List.foldl_cons, List.foldl_nil,
      omax_none_left]
  simp only [softmin3, softmin_gamma, log_sum_exp, hfold]
  cases hm : omax (omax (negDiv γ a) (negDiv γ b)) (negDiv γ c) with
  | none => rfl
  | some m =>
    simp only [List.map_cons, List.map_nil, List.sum_cons, List.sum_nil]
    ring_nf

theorem softmin3_eq_log {γ : ℝ} {a b c : F}
    (h : (∃ r, a = F.fin r) ∨ (∃ r, b = F.fin r) ∨ (∃ r, c = F.fin r)) :
    softmin3 γ a b c
      = .fin (-γ * Real.log (F.wt γ a + F.wt γ b + F.wt γ c)) := by
  have hmem : ∃ r, F.fin r ∈ [a, b, c] := by
    rcases h with ⟨r, rfl⟩ | ⟨r, rfl⟩ | ⟨r, rfl⟩ <;> exact ⟨r, by simp⟩
  obtain ⟨r, hr⟩ := hmem
  rw [softmin3_eq_gamma, softmin_gamma_eq_log hr]
  have : sumW γ [a, b, c] = F.wt γ a + F.wt γ b + F.wt γ c := by
    simp [sumW]
    ring
  rw [this]

theorem softmin3_all_inf (γ : ℝ) : softmin3 γ .inf .inf .inf = .inf := by
  rw [softmin3_eq_gamma]
  exact softmin_gamma_all_inf (by intro c hc; simpa using hc)

theorem listMin_spec : ∀ (l : List ℝ), l ≠ [] →
    listMin l ∈ l ∧ ∀ a ∈ l, listMin l ≤ a := by
  have key : ∀ (l : List ℝ) (a : ℝ),
      (l.foldl min a ∈ a :: l) ∧ l.foldl min a ≤ a ∧ ∀ x ∈ l, l.foldl min a ≤ x := by
    intro l
    induction l with
    | nil => intro a; simp
    | cons b l ih =>
      intro a
      obtain ⟨hmem, hle, hall⟩ := ih (min a b)
      refine ⟨?_, ?_, ?_⟩
      · simp only [List.foldl_cons]
        rcases List.mem_cons.mp hmem with h | h
        · rcases le_total a b with hab | hab
          · rw [h, min_eq_left hab]
            exact List.mem_cons_self _ _
          · rw [h, min_eq_right hab]
            exact List.mem_cons_of_mem _ (List.mem_cons_self _ _)
        · exact List.mem_cons_of_mem _ (List.mem_cons_of_mem _ h)
      · simp only [List.foldl_cons]
        exact hle.trans (min_le_left _ _)
      · intro x hx
        simp only [List.foldl_cons]
        rcases List.mem_cons.mp hx with h | h
        · subst h
          exact hle.trans (min_le_right _ _)
        · exact hall x h
  intro l hl
  cases l with
  | nil => exact absurd rfl hl
  | cons a l =>
    obtain ⟨hmem, hle, hall⟩ := key l a
    refine ⟨hmem, ?_⟩
    intro x hx
    rcases List.mem_cons.mp hx with h | h
    · subst h; exact hle
    · exact hall x h

theorem softmin_le_of_mem {γ : ℝ} (hγ : 0 < γ) {l : List F} {r : ℝ}
    (h : F.fin r ∈ l) : -γ * Real.log (sumW γ l) ≤ r := by
  have hS : 0 < sumW γ l := sumW_pos h
  have hw : Real.exp (-r / γ) ≤ sumW γ l := wt_le_sumW h
  have hlog : -r / γ ≤ Real.log (sumW γ l) := (Real.le_log_iff_exp_le hS).mpr hw
  have h2 : γ * (-r / γ) = -r := by field_simp; ring
  nlinarith [mul_le_mul_of_nonneg_left hlog hγ.le]

theorem sumW_map_fin (γ : ℝ) (l : List ℝ) :
    sumW γ (l.map F.fin) = (l.map fun a => Real.exp (-a / γ)).sum := by
  simp only [sumW, List.map_map]
  rfl

theorem softmin_list_lower {γ : ℝ} (hγ : 0 < γ) {l : List ℝ} (hl : l ≠ []) :
    listMin l - γ * Real.log l.length
      ≤ -γ * Real.log (sumW γ (l.map F.fin)) := by
  obtain ⟨hmem, hmin⟩ := listMin_spec l hl
  have hS : 0 < sumW γ (l.map F.fin) :=
    sumW_pos (List.mem_map.mpr ⟨listMin l, hmem, rfl⟩)
  have hk : (0 : ℝ) < l.length := by
    have : 0 < l.length := List.length_pos.mpr hl
    exact_mod_cast this
  have hub : sumW γ (l.map F.fin)
      ≤ (l.length : ℝ) * Real.exp (-(listMin l) / γ) := by
    rw [sumW_map_fin]
    have := List.sum_le_card_nsmul (l.map fun a => Real.exp (-a / γ))
      (Real.exp (-(listMin l) / γ)) (by
        intro x hx
        obtain ⟨a, ha, rfl⟩ := List.mem_map.mp hx
        apply Real.exp_le_exp.mpr
        have hma := hmin a ha
        apply div_le_div_of_nonneg_right ?_ hγ.le
        linarith)
    rw [List.length_map] at this
    simpa [nsmul_eq_mul] using this
  have hpos2 : 0 < (l.length : ℝ) * Real.exp (-(listMin l) / γ) :=
    mul_pos hk (Real.exp_pos _)
  have hlog : Real.log (sumW γ (l.map F.fin))
      ≤ Real.log l.length + (-(listMin l) / γ) := by
    have := (Real.log_le_log_iff hS hpos2).mpr hub
    rwa [Real.log_mul (ne_of_gt hk) (Real.exp_ne_zero _), Real.log_exp] at this
  have h2 : γ * (-(listMin l) / γ) = -(listMin l) := by field_simp; ring
  nlinarith [mul_le_mul_of_nonneg_left hlog hγ.le]

theorem softmin_list_upper {γ : ℝ} (hγ : 0 < γ) {l : List ℝ} (hl : l ≠ []) :
    -γ * Real.log (sumW γ (l.map F.fin)) ≤ listMin l := by
  obtain ⟨hmem, _⟩ := listMin_spec l hl
  exact softmin_le_of_mem hγ (List.mem_map.mpr ⟨listMin l, hmem, rfl⟩)

/-- Claim C1: for every positive finite `γ` and every non-empty list of `k`
finite real candidates, the softmin primitive lies in
`[min(a) - γ·ln k, min(a)]`; this holds for the variable-size `softmin_gamma`
form and, with `k = 3`, for the fixed three-candidate `softmin3` form. -/
theorem claim1_softmin_bounds (γ : ℝ) (hγ : 0 < γ) (l : List ℝ) (hl : l ≠ [])
    (a b c : ℝ) :
    (∃ v : ℝ, softmin_gamma γ (l.map F.fin) = .fin v ∧
      listMin l - γ * Real.log l.length ≤ v ∧ v ≤ listMin l) ∧
    (∃ w : ℝ, softmin3 γ (.fin a) (.fin b) (.fin c) = .fin w ∧
      min a (min b c) - γ * Real.log 3 ≤ w ∧ w ≤ min a (min b c)) := by
  constructor
  · obtain ⟨hmem, _⟩ := listMin_spec l hl
    refine ⟨-γ * Real.log (sumW γ (l.map F.fin)), ?_, ?_, ?_⟩
    · exact softmin_gamma_eq_log (List.mem_map.mpr ⟨listMin l, hmem, rfl⟩)
    · exact softmin_list_lower hγ hl
    · exact softmin_list_upper hγ hl
  · have h3 : ([a, b, c] : List ℝ) ≠ [] := by simp
    have hmin3 : listMin [a, b, c] = min a (min b c) := by
      simp [listMin, List.foldl]
      rw [min_assoc]
    have hlen : (([a, b, c] : List ℝ).length : ℝ) = 3 := by norm_num
    refine ⟨-γ * Real.log (sumW γ ([a, b, c].map F.fin)), ?_, ?_, ?_⟩
    · have heq : sumW γ ([a, b, c].map F.fin)
          = F.wt γ (.fin a) + F.wt γ (.fin b) + F.wt γ (.fin c) := by
        simp [sumW]
        ring
      rw [heq]
      exact softmin3_eq_log (Or.inl ⟨a, rfl⟩)
    · have := softmin_list_lower hγ h3
      rwa [hmin3, hlen] at this
    · have := softmin_list_upper hγ h3
      rwa [hmin3] at this

theorem claim1_softmin_bounds_witness :
    (0 : ℝ) < 1 ∧
    ((∃ v : ℝ, softmin_gamma 1 ([(0 : ℝ)].map F.fin) = .fin v ∧
      listMin [(0 : ℝ)] - 1 * Real.log ([(0 : ℝ)].length) ≤ v ∧
      v ≤ listMin [(0 : ℝ)]) ∧
    (∃ w : ℝ, softmin3 1 (.fin 0) (.fin 0) (.fin 0) = .fin w ∧
      min (0 : ℝ) (min 0 0) - 1 * Real.log 3 ≤ w ∧ w ≤ min (0 : ℝ) (min 0 0))) :=
  ⟨by norm_num,
    claim1_softmin_bounds 1 (by norm_num) [(0 : ℝ)] (by simp) 0 0 0⟩

/-- Claim C7: with every candidate equal to `+∞` (the DP encoding of an
unreachable predecessor) the softmin primitive returns `+∞` (never `NaN`):
the fixed three-candidate `softmin3` and the list form `softmin_gamma` both
return `+∞` on all-`+∞` input. -/
theorem claim7_softmin_all_inf (γ : ℝ) (hγ : 0 < γ) (cands : List F)
    (h : ∀ c ∈ cands, c = F.inf) :
    softmin3 γ .inf .inf .inf = .inf ∧ softmin_gamma γ cands = .inf :=
  ⟨softmin3_all_inf γ, softmin_gamma_all_inf h⟩

theorem claim7_softmin_all_inf_witness :
    softmin3 1 .inf .inf .inf = .inf ∧ softmin_gamma 1 [.inf] = .inf :=
  claim7_softmin_all_inf 1 (by norm_num) [.inf] (by intro c hc; simpa using hc)

end CoreLemmas

noncomputable section

namespace SoftDtw

/-- Error type of `src/soft_dtw.rs` (`thiserror` enum). -/
inductive Error where
  | invalidGamma (g : ℝ)
  | emptyInput
  | invalidCostShape (len n m expected : ℕ)

/-- The Soft-DTW forward table `R` of `soft_dtw`, as a recursive function of
the cell index: `R[0,0] = 0`, first row and column `+∞`, and
`R[i,j] = (x[i-1]-y[j-1])² + softmin3 (R[i-1,j], R[i,j-1], R[i-1,j-1])`.
Out-of-range sequence reads (never performed by `soft_dtw`) default to `0`. -/
def softR (γ : ℝ) (x y : List ℝ) : ℕ → ℕ → F
  | 0, 0 => .fin 0
  | 0, _ + 1 => .inf
  | _ + 1, 0 => .inf
  | i + 1, j + 1 =>
    F.add ((x.getD i 0 - y.getD j 0) ^ 2)
      (softmin3 γ (softR γ x y i (j + 1)) (softR γ x y (i + 1) j)
        (softR γ x y i j))
termination_by i j => (i, j)

/-- Embedding of `soft_dtw`: validate `γ`, reject empty inputs, return the
`(n, m)` corner of the DP table. -/
def soft_dtw (x y : List ℝ) (γ : ℝ) : Except Error F :=
  if γ ≤ 0 then .error (.invalidGamma γ)
  else if x = [] ∨ y = [] then .error .emptyInput
  else .ok (softR γ x y x.length y.length)

/-- The forward table of `soft_dtw_cost`: identical recursion except the cell
cost is read from the row-major buffer, `cost[(i-1)*m + (j-1)]`. -/
def softRC (γ : ℝ) (cost : List ℝ) (m : ℕ) : ℕ → ℕ → F
  | 0, 0 => .fin 0
  | 0, _ + 1 => .inf
  | _ + 1, 0 => .inf
  | i + 1, j + 1 =>
    F.add (cost.getD (i * m + j) 0)
      (softmin3 γ (softRC γ cost m i (j + 1)) (softRC γ cost m (i + 1) j)
        (softRC γ cost m i j))
termination_by i j => (i, j)

/-- Embedding of `soft_dtw_cost`: validate `γ`, reject empty dimensions,
reject a buffer whose length is not `n*m` with the shape-mismatch error
carrying `(len, n, m, expected = n*m)`, else run the DP. -/
def soft_dtw_cost (cost : List ℝ) (n m : ℕ) (γ : ℝ) : Except Error F :=
  if γ ≤ 0 then .error (.invalidGamma γ)
  else if n = 0 ∨ m = 0 then .error .emptyInput
  else if cost.length ≠ n * m then
    .error (.invalidCostShape cost.length n m (n * m))
  else .ok (softRC γ cost m n m)

/-- The classical hard-min DTW table of the test helper `dtw_squared`:
same recursion with `f64::min` in place of `softmin3`. -/
def hardR (x y : List ℝ) : ℕ → ℕ → F
  | 0, 0 => .fin 0
  | 0, _ + 1 => .inf
  | _ + 1, 0 => .inf
  | i + 1, j + 1 =>
    F.add ((x.getD i 0 - y.getD j 0) ^ 2)
      (F.minv (F.minv (hardR x y i (j + 1)) (hardR x y (i + 1) j))
        (hardR x y i j))
termination_by i j => (i, j)

/-- Embedding of the test helper `dtw_squared` (classical DTW with squared
distance, min-plus DP). -/
def dtw_squared (x y : List ℝ) : F := hardR x y x.length y.length

end SoftDtw

end

section OrderLemmas

@[simp] theorem le_fin_fin (p q : ℝ) : (F.fin p ≤ F.fin q) ↔ p ≤ q := Iff.rfl

@[simp] theorem le_inf_fin (q : ℝ) : (F.inf ≤ F.fin q) ↔ False :=
  ⟨fun h => h, False.elim⟩

@[simp] theorem le_any_inf (v : F) : v ≤ F.inf := by
  cases v <;> exact trivial

theorem F_le_inf (v : F) : v ≤ F.inf := le_any_inf v

theorem F_le_refl (v : F) : v ≤ v := by
  cases v <;> simp

theorem F_le_trans {u v w : F} (h1 : u ≤ v) (h2 : v ≤ w) : u ≤ w := by
  cases u <;> cases v <;> cases w <;> simp_all
  linarith

instance : Trans (· ≤ · : F → F → Prop) (· ≤ · : F → F → Prop) (· ≤ · : F → F → Prop) :=
  ⟨F_le_trans⟩

theorem minv_le_left (u v : F) : F.minv u v ≤ u := by
  cases u <;> cases v <;> simp [F.minv]

theorem minv_le_right (u v : F) : F.minv u v ≤ v := by
  cases u <;> cases v <;> simp [F.minv]

theorem le_minv {u v w : F} (hv : u ≤ v) (hw : u ≤ w) : u ≤ F.minv v w := by
  cases u <;> cases v <;> cases w <;> simp_all [F.minv]

theorem minv_mono {u u' v v' : F} (hu : u ≤ u') (hv : v ≤ v') :
    F.minv u v ≤ F.minv u' v' :=
  le_minv (F_le_trans (minv_le_left _ _) hu) (F_le_trans (minv_le_right _ _) hv)

theorem add_mono (d : ℝ) {u v : F} (h : u ≤ v) : F.add d u ≤ F.add d v := by
  cases u <;> cases v <;> simp_all [F.add]

theorem add_mono_left {d d' : ℝ} (h : d ≤ d') (v : F) :
    F.add d v ≤ F.add d' v := by
  cases v <;> simp_all [F.add]

theorem add_add (d t : ℝ) (v : F) :
    F.add d (F.add t v) = F.add (d + t) v := by
  cases v <;> simp [F.add] <;> ring_nf

theorem add_minv (d : ℝ) (u v : F) :
    F.add d (F.minv u v) = F.minv (F.add d u) (F.add d v) := by
  cases u <;> cases v <;> simp [F.add, F.minv, min_add_add_left]

theorem wt_antitone {γ : ℝ} (hγ : 0 < γ) {u v : F} (h : u ≤ v) :
    F.wt γ v ≤ F.wt γ u := by
  cases u with
  | fin p =>
    cases v with
    | fin q =>
      simp only [F.wt]
      apply Real.exp_le_exp.mpr
      apply div_le_div_of_nonneg_right ?_ hγ.le
      have hpq : p ≤ q := h
      linarith
    | inf => exact wt_nonneg γ _
  | inf =>
    cases v with
    | fin q => simp at h
    | inf => exact le_refl _

theorem minv_eq_inf {u v : F} :
    F.minv u v = F.inf ↔ u = F.inf ∧ v = F.inf := by
  cases u <;> cases v <;> simp [F.minv]

theorem neg_mul_log_le {γ S r : ℝ} (hγ : 0 < γ) (hS : 0 < S)
    (hw : Real.exp (-r / γ) ≤ S) : -γ * Real.log S ≤ r := by
  have hlog : -r / γ ≤ Real.log S := (Real.le_log_iff_exp_le hS).mpr hw
  have h2 : γ * (-r / γ) = -r := by field_simp; ring
  nlinarith [mul_le_mul_of_nonneg_left hlog hγ.le]

theorem le_neg_mul_log {γ S r k : ℝ} (hγ : 0 < γ) (hk : 0 < k) (hS : 0 < S)
    (hub : S ≤ k * Real.exp (-r / γ)) :
    r - γ * Real.log k ≤ -γ * Real.log S := by
  have hpos2 : 0 < k * Real.exp (-r / γ) := mul_pos hk (Real.exp_pos _)
  have hlog : Real.log S ≤ Real.log k + -r / γ := by
    have := (Real.log_le_log_iff hS hpos2).mpr hub
    rwa [Real.log_mul (ne_of_gt hk) (Real.exp_ne_zero _), Real.log_exp] at this
  have h2 : γ * (-r / γ) = -r := by field_simp; ring
  nlinarith [mul_le_mul_of_nonneg_left hlog hγ.le]

end OrderLemmas

section Softmin3Compare

theorem softmin3_fin_of {γ : ℝ} {a b c : F}
    (h : (∃ r, a = F.fin r) ∨ (∃ r, b = F.fin r) ∨ (∃ r, c = F.fin r)) :
    ∃ w, softmin3 γ a b c = F.fin w :=
  ⟨_, softmin3_eq_log h⟩

theorem not_all_inf {a b c : F} (h : ¬(a = F.inf ∧ b = F.inf ∧ c = F.inf)) :
    (∃ r, a = F.fin r) ∨ (∃ r, b = F.fin r) ∨ (∃ r, c = F.fin r) := by
  cases a with
  | fin r => exact Or.inl ⟨r, rfl⟩
  | inf =>
    cases b with
    | fin r => exact Or.inr (Or.inl ⟨r, rfl⟩)
    | inf =>
      cases c with
      | fin r => exact Or.inr (Or.inr ⟨r, rfl⟩)
      | inf => exact absurd ⟨rfl, rfl, rfl⟩ h

theorem wtsum_pos {γ : ℝ} {a b c : F}
    (h : (∃ r, a = F.fin r) ∨ (∃ r, b = F.fin r) ∨ (∃ r, c = F.fin r)) :
    0 < F.wt γ a + F.wt γ b + F.wt γ c := by
  have h1 := wt_nonneg γ a
  have h2 := wt_nonneg γ b
  have h3 := wt_nonneg γ c
  rcases h with ⟨r, rfl⟩ | ⟨r, rfl⟩ | ⟨r, rfl⟩ <;>
    · have := Real.exp_pos (-r / γ)
      simp only [F.wt] at *
      linarith

theorem softmin3_le_finarg {γ : ℝ} (hγ : 0 < γ) {a b c : F} {r : ℝ}
    (hmem : F.fin r = a ∨ F.fin r = b ∨ F.fin r = c) :
    softmin3 γ a b c ≤ F.fin r := by
  have hfin : (∃ q, a = F.fin q) ∨ (∃ q, b = F.fin q) ∨ (∃ q, c = F.fin q) := by
    rcases hmem with h | h | h
    · exact Or.inl ⟨r, h.symm⟩
    · exact Or.inr (Or.inl ⟨r, h.symm⟩)
    · exact Or.inr (Or.inr ⟨r, h.symm⟩)
  rw [softmin3_eq_log hfin]
  have hS := wtsum_pos (γ := γ) hfin
  have h1 := wt_nonneg γ a
  have h2 := wt_nonneg γ b
  have h3 := wt_nonneg γ c
  have hw : Real.exp (-r / γ) ≤ F.wt γ a + F.wt γ b + F.wt γ c := by
    rcases hmem with h | h | h <;>
      · rw [← h] at *
        simp only [F.wt] at *
        linarith
  exact (le_fin_fin _ _).mpr (neg_mul_log_le hγ hS hw)

theorem softmin3_le_arg1 {γ : ℝ} (hγ : 0 < γ) (a b c : F) :
    softmin3 γ a b c ≤ a := by
  cases a with
  | inf => exact le_any_inf _
  | fin r => exact softmin3_le_finarg hγ (Or.inl rfl)

theorem softmin3_le_arg2 {γ : ℝ} (hγ : 0 < γ) (a b c : F) :
    softmin3 γ a b c ≤ b := by
  cases b with
  | inf => exact le_any_inf _
  | fin r => exact softmin3_le_finarg hγ (Or.inr (Or.inl rfl))

theorem softmin3_le_arg3 {γ : ℝ} (hγ : 0 < γ) (a b c : F) :
    softmin3 γ a b c ≤ c := by
  cases c with
  | inf => exact le_any_inf _
  | fin r => exact softmin3_le_finarg hγ (Or.inr (Or.inr rfl))

theorem softmin3_le_minv {γ : ℝ} (hγ : 0 < γ) (a b c : F) :
    softmin3 γ a b c ≤ F.minv (F.minv a b) c :=
  le_minv (le_minv (softmin3_le_arg1 hγ a b c) (softmin3_le_arg2 hγ a b c))
    (softmin3_le_arg3 hγ a b c)

theorem minv3_le_add_softmin3 {γ : ℝ} (hγ : 0 < γ) (a b c : F) :
    F.minv (F.minv a b) c ≤ F.add (γ * Real.log 3) (softmin3 γ a b c) := by
  cases hmin : F.minv (F.minv a b) c with
  | inf =>
    obtain ⟨hab, hc⟩ := minv_eq_inf.mp hmin
    obtain ⟨ha, hb⟩ := minv_eq_inf.mp hab
    subst ha; subst hb; subst hc
    rw [softmin3_all_inf]
    exact le_any_inf _
  | fin mn =>
    have hne : ¬(a = F.inf ∧ b = F.inf ∧ c = F.inf) := by
      rintro ⟨rfl, rfl, rfl⟩
      simp [F.minv] at hmin
    have hfin := not_all_inf hne
    rw [softmin3_eq_log hfin]
    have hS := wtsum_pos (γ := γ) hfin
    have hmle : F.minv (F.minv a b) c ≤ a :=
      F_le_trans (minv_le_left _ _) (minv_le_left _ _)
    have hmlb : F.minv (F.minv a b) c ≤ b :=
      F_le_trans (minv_le_left _ _) (minv_le_right _ _)
    have hmlc : F.minv (F.minv a b) c ≤ c := minv_le_right _ _
    rw [hmin] at hmle hmlb hmlc
    have h1 : F.wt γ a ≤ Real.exp (-mn / γ) := wt_antitone hγ hmle
    have h2 : F.wt γ b ≤ Real.exp (-mn / γ) := wt_antitone hγ hmlb
    have h3 : F.wt γ c ≤ Real.exp (-mn / γ) := wt_antitone hγ hmlc
    have hub : F.wt γ a + F.wt γ b + F.wt γ c ≤ 3 * Real.exp (-mn / γ) := by
      linarith
    have := le_neg_mul_log hγ (by norm_num : (0:ℝ) < 3) hS hub
    simp only [F.add]
    exact (le_fin_fin _ _).mpr (by linarith)

end Softmin3Compare

namespace SoftDtw

theorem softR_zero_zero (γ : ℝ) (x y : List ℝ) : softR γ x y 0 0 = .fin 0 := by
  rw [softR]

theorem softR_zero_succ (γ : ℝ) (x y : List ℝ) (j : ℕ) :
    softR γ x y 0 (j + 1) = .inf := by
  rw [softR]

theorem softR_succ_zero (γ : ℝ) (x y : List ℝ) (i : ℕ) :
    softR γ x y (i + 1) 0 = .inf := by
  rw [softR]

theorem softR_succ_succ (γ : ℝ) (x y : List ℝ) (i j : ℕ) :
    softR γ x y (i + 1) (j + 1) =
      F.add ((x.getD i 0 - y.getD j 0) ^ 2)
        (softmin3 γ (softR γ x y i (j + 1)) (softR γ x y (i + 1) j)
          (softR γ x y i j)) := by
  rw [softR]

theorem hardR_zero_zero (x y : List ℝ) : hardR x y 0 0 = .fin 0 := by
  rw [hardR]

theorem hardR_zero_succ (x y : List ℝ) (j : ℕ) : hardR x y 0 (j + 1) = .inf := by
  rw [hardR]

theorem hardR_succ_zero (x y : List ℝ) (i : ℕ) : hardR x y (i + 1) 0 = .inf := by
  rw [hardR]

theorem hardR_succ_succ (x y : List ℝ) (i j : ℕ) :
    hardR x y (i + 1) (j + 1) =
      F.add ((x.getD i 0 - y.getD j 0) ^ 2)
        (F.minv (F.minv (hardR x y i (j + 1)) (hardR x y (i + 1) j))
          (hardR x y i j)) := by
  rw [hardR]

theorem minv_fin_of {u v : F} (h : (∃ r, u = F.fin r) ∨ (∃ r, v = F.fin r)) :
    ∃ w, F.minv u v = F.fin w := by
  cases u with
  | fin p =>
    cases v with
    | fin q => exact ⟨min p q, rfl⟩
    | inf => exact ⟨p, rfl⟩
  | inf =>
    cases v with
    | fin q => exact ⟨q, rfl⟩
    | inf =>
      rcases h with ⟨r, hr⟩ | ⟨r, hr⟩ <;> exact absurd hr (fun hh => F.noConfusion hh)

theorem softR_le_hardR {γ : ℝ} (hγ : 0 < γ) (x y : List ℝ) :
    ∀ s i j, i + j ≤ s → softR γ x y i j ≤ hardR x y i j := by
  intro s
  induction s with
  | zero =>
    intro i j hij
    have hi : i = 0 := by omega
    have hj : j = 0 := by omega
    subst hi; subst hj
    rw [softR_zero_zero, hardR_zero_zero]
    exact F_le_refl _
  | succ s ih =>
    intro i j hij
    match i, j with
    | 0, 0 => rw [softR_zero_zero, hardR_zero_zero]; exact F_le_refl _
    | 0, j + 1 => rw [softR_zero_succ, hardR_zero_succ]; exact le_any_inf _
    | i + 1, 0 => rw [softR_succ_zero, hardR_succ_zero]; exact le_any_inf _
    | i + 1, j + 1 =>
      rw [softR_succ_succ, hardR_succ_succ]
      apply add_mono
      exact F_le_trans (softmin3_le_minv hγ _ _ _)
        (minv_mono (minv_mono (ih i (j + 1) (by omega)) (ih (i + 1) j (by omega)))
          (ih i j (by omega)))

theorem hardR_le_shift {γ : ℝ} (hγ : 0 < γ) (x y : List ℝ) :
    ∀ s i j, i + j ≤ s →
      hardR x y i j ≤ F.add (((i + j : ℕ) : ℝ) * γ * Real.log 3) (softR γ x y i j) := by
  have hL3 : 0 ≤ γ * Real.log 3 :=
    mul_nonneg hγ.le (Real.log_nonneg (by norm_num))
  intro s
  induction s with
  | zero =>
    intro i j hij
    have hi : i = 0 := by omega
    have hj : j = 0 := by omega
    subst hi; subst hj
    rw [softR_zero_zero, hardR_zero_zero]
    simp [F.add]
  | succ s ih =>
    intro i j hij
    match i, j with
    | 0, 0 =>
      rw [softR_zero_zero, hardR_zero_zero]
      simp [F.add]
    | 0, j + 1 =>
      rw [softR_zero_succ, hardR_zero_succ]
      simp [F.add]
    | i + 1, 0 =>
      rw [softR_succ_zero, hardR_succ_zero]
      simp [F.add]
    | i + 1, j + 1 =>
      rw [softR_succ_succ, hardR_succ_succ]
      set sa := softR γ x y i (j + 1) with hsa
      set sb := softR γ x y (i + 1) j with hsb
      set sc := softR γ x y i j with hsc
      set ha := hardR x y i (j + 1) with hha
      set hb := hardR x y (i + 1) j with hhb
      set hc := hardR x y i j with hhc
      set T : ℝ := ((i + j + 1 : ℕ) : ℝ) * γ * Real.log 3 with hT
      have h1 : ha ≤ F.add T sa := by
        have h := ih i (j + 1) (by omega)
        have hco : ((i + (j + 1) : ℕ) : ℝ) = ((i + j + 1 : ℕ) : ℝ) := by
          push_cast; ring
        rw [hco] at h
        exact h
      have h2 : hb ≤ F.add T sb := by
        have h := ih (i + 1) j (by omega)
        have hco : (((i + 1) + j : ℕ) : ℝ) = ((i + j + 1 : ℕ) : ℝ) := by
          push_cast; ring
        rw [hco] at h
        exact h
      have h3 : hc ≤ F.add T sc := by
        have h := ih i j (by omega)
        refine F_le_trans h (add_mono_left ?_ _)
        have hcast : ((i + j : ℕ) : ℝ) ≤ ((i + j + 1 : ℕ) : ℝ) := by
          push_cast; linarith
        rw [hT]
        nlinarith
      have key : F.minv (F.minv ha hb) hc
          ≤ F.add (T + γ * Real.log 3) (softmin3 γ sa sb sc) :=
        calc F.minv (F.minv ha hb) hc
            ≤ F.minv (F.minv (F.add T sa) (F.add T sb)) (F.add T sc) :=
              minv_mono (minv_mono h1 h2) h3
          _ = F.add T (F.minv (F.minv sa sb) sc) := by rw [add_minv, add_minv]
          _ ≤ F.add T (F.add (γ * Real.log 3) (softmin3 γ sa sb sc)) :=
              add_mono _ (minv3_le_add_softmin3 hγ _ _ _)
          _ = F.add (T + γ * Real.log 3) (softmin3 γ sa sb sc) := add_add _ _ _
      have hstep := add_mono ((x.getD i 0 - y.getD j 0) ^ 2) key
      rw [add_add] at hstep
      refine F_le_trans hstep ?_
      rw [add_add]
      have hco : (x.getD i 0 - y.getD j 0) ^ 2 + (T + γ * Real.log 3)
          = ((i + 1 + (j + 1) : ℕ) : ℝ) * γ * Real.log 3
            + (x.getD i 0 - y.getD j 0) ^ 2 := by
        rw [hT]; push_cast; ring
      rw [hco]
      exact F_le_refl _

theorem softR_fin {γ : ℝ} (x y : List ℝ) :
    ∀ s i j, i + j ≤ s → 1 ≤ i → 1 ≤ j → ∃ v, softR γ x y i j = .fin v := by
  intro s
  induction s with
  | zero => intro i j h hi hj; omega
  | succ s ih =>
    intro i j hij hi hj
    obtain ⟨i, rfl⟩ : ∃ i', i = i' + 1 := ⟨i - 1, by omega⟩
    obtain ⟨j, rfl⟩ : ∃ j', j = j' + 1 := ⟨j - 1, by omega⟩
    rw [softR_succ_succ]
    have hdiag : (∃ r, softR γ x y i (j + 1) = F.fin r)
        ∨ (∃ r, softR γ x y (i + 1) j = F.fin r)
        ∨ (∃ r, softR γ x y i j = F.fin r) := by
      match i, j with
      | 0, 0 => exact Or.inr (Or.inr ⟨0, softR_zero_zero γ x y⟩)
      | 0, j + 1 => exact Or.inr (Or.inl (ih 1 (j + 1) (by omega) (by omega) (by omega)))
      | i + 1, 0 => exact Or.inl (ih (i + 1) 1 (by omega) (by omega) (by omega))
      | i + 1, j + 1 =>
        exact Or.inr (Or.inr (ih (i + 1) (j + 1) (by omega) (by omega) (by omega)))
    obtain ⟨w, hw⟩ := softmin3_fin_of hdiag
    exact ⟨_, by rw [hw]; rfl⟩

theorem hardR_fin (x y : List ℝ) :
    ∀ s i j, i + j ≤ s → 1 ≤ i → 1 ≤ j → ∃ v, hardR x y i j = .fin v := by
  intro s
  induction s with
  | zero => intro i j h hi hj; omega
  | succ s ih =>
    intro i j hij hi hj
    obtain ⟨i, rfl⟩ : ∃ i', i = i' + 1 := ⟨i - 1, by omega⟩
    obtain ⟨j, rfl⟩ : ∃ j', j = j' + 1 := ⟨j - 1, by omega⟩
    rw [hardR_succ_succ]
    have hdiag : (∃ r, hardR x y i (j + 1) = F.fin r)
        ∨ (∃ r, hardR x y (i + 1) j = F.fin r)
        ∨ (∃ r, hardR x y i j = F.fin r) := by
      match i, j with
      | 0, 0 => exact Or.inr (Or.inr ⟨0, hardR_zero_zero x y⟩)
      | 0, j + 1 => exact Or.inr (Or.inl (ih 1 (j + 1) (by omega) (by omega) (by omega)))
      | i + 1, 0 => exact Or.inl (ih (i + 1) 1 (by omega) (by omega) (by omega))
      | i + 1, j + 1 =>
        exact Or.inr (Or.inr (ih (i + 1) (j + 1) (by omega) (by omega) (by omega)))
    have hminfin : ∃ w, F.minv (F.minv (hardR x y i (j + 1)) (hardR x y (i + 1) j))
        (hardR x y i j) = F.fin w := by
      rcases hdiag with ⟨r, hr⟩ | ⟨r, hr⟩ | ⟨r, hr⟩
      · obtain ⟨w, hw⟩ := minv_fin_of (v := hardR x y (i + 1) j) (Or.inl ⟨r, hr⟩)
        exact minv_fin_of (Or.inl ⟨w, hw⟩)
      · obtain ⟨w, hw⟩ := minv_fin_of (u := hardR x y i (j + 1)) (Or.inr ⟨r, hr⟩)
        exact minv_fin_of (Or.inl ⟨w, hw⟩)
      · exact minv_fin_of (Or.inr ⟨r, hr⟩)
    obtain ⟨w, hw⟩ := hminfin
    exact ⟨_, by rw [hw]; rfl⟩

end SoftDtw

namespace SoftDtw

theorem softRC_zero_zero (γ : ℝ) (cost : List ℝ) (m : ℕ) :
    softRC γ cost m 0 0 = .fin 0 := by
  rw [softRC]

theorem softRC_zero_succ (γ : ℝ) (cost : List ℝ) (m j : ℕ) :
    softRC γ cost m 0 (j + 1) = .inf := by
  rw [softRC]

theorem softRC_succ_zero (γ : ℝ) (cost : List ℝ) (m i : ℕ) :
    softRC γ cost m (i + 1) 0 = .inf := by
  rw [softRC]

theorem softRC_succ_succ (γ : ℝ) (cost : List ℝ) (m i j : ℕ) :
    softRC γ cost m (i + 1) (j + 1) =
      F.add (cost.getD (i * m + j) 0)
        (softmin3 γ (softRC γ cost m i (j + 1)) (softRC γ cost m (i + 1) j)
          (softRC γ cost m i j)) := by
  rw [softRC]

/-- Row-major squared-distance cost buffer `cost[i*m + j] = (x[i] - y[j])²`,
as the scalar-vs-cost-matrix equivalence test builds it. -/
def sqCost (x y : List ℝ) : List ℝ :=
  (List.range (x.length * y.length)).map
    (fun k => (x.getD (k / y.length) 0 - y.getD (k % y.length) 0) ^ 2)

theorem sqCost_length (x y : List ℝ) :
    (sqCost x y).length = x.length * y.length := by
  simp [sqCost]

theorem sqCost_getD {x y : List ℝ} {i j : ℕ}
    (hi : i < x.length) (hj : j < y.length) :
    (sqCost x y).getD (i * y.length + j) 0
      = (x.getD i 0 - y.getD j 0) ^ 2 := by
  have hm : 0 < y.length := by omega
  have hk : i * y.length + j < x.length * y.length := by
    calc i * y.length + j < i * y.length + y.length := by omega
      _ = (i + 1) * y.length := by ring
      _ ≤ x.length * y.length := Nat.mul_le_mul_right _ (by omega)
  have hdiv : (i * y.length + j) / y.length = i := by
    rw [Nat.add_comm, Nat.mul_comm, Nat.add_mul_div_left _ _ hm,
      Nat.div_eq_of_lt hj, Nat.zero_add]
  have hmod : (i * y.length + j) % y.length = j := by
    rw [Nat.add_comm, Nat.mul_comm, Nat.add_mul_mod_self_left,
      Nat.mod_eq_of_lt hj]
  rw [sqCost, List.getD_eq_getElem?_getD, List.getElem?_map,
    List.getElem?_range hk]
  simp [hdiv, hmod]

theorem softRC_eq_softR {γ : ℝ} {x y cost : List ℝ}
    (hcost : ∀ i j, i < x.length → j < y.length →
      cost.getD (i * y.length + j) 0 = (x.getD i 0 - y.getD j 0) ^ 2) :
    ∀ s i j, i + j ≤ s → i ≤ x.length → j ≤ y.length →
      softRC γ cost y.length i j = softR γ x y i j := by
  intro s
  induction s with
  | zero =>
    intro i j hij hi hj
    have h1 : i = 0 := by omega
    have h2 : j = 0 := by omega
    subst h1; subst h2
    rw [softRC_zero_zero, softR_zero_zero]
  | succ s ih =>
    intro i j hij hi hj
    match i, j with
    | 0, 0 => rw [softRC_zero_zero, softR_zero_zero]
    | 0, j + 1 => rw [softRC_zero_succ, softR_zero_succ]
    | i + 1, 0 => rw [softRC_succ_zero, softR_succ_zero]
    | i + 1, j + 1 =>
      rw [softRC_succ_succ, softR_succ_succ,
        hcost i j (by omega) (by omega),
        ih i (j + 1) (by omega) (by omega) (by omega),
        ih (i + 1) j (by omega) (by omega) (by omega),
        ih i j (by omega) (by omega) (by omega)]

end SoftDtw

/-- Claim C2: for every positive finite `γ` and non-empty sequences `x`, `y`,
the Soft-DTW value is at most the classical hard-min DTW value, and their gap
is at most `(|x| + |y|)·γ·ln 3` (here proved exactly, with no numerical
tolerance needed). -/
theorem claim2_soft_le_hard (x y : List ℝ) (γ : ℝ) (hγ : 0 < γ)
    (hx : x ≠ []) (hy : y ≠ []) :
    ∃ s d : ℝ, SoftDtw.soft_dtw x y γ = .ok (.fin s) ∧
      SoftDtw.dtw_squared x y = .fin d ∧ s ≤ d ∧
      d - s ≤ ((x.length + y.length : ℕ) : ℝ) * γ * Real.log 3 := by
  have hn : 1 ≤ x.length := List.length_pos.mpr hx
  have hm : 1 ≤ y.length := List.length_pos.mpr hy
  obtain ⟨s, hs⟩ :=
    SoftDtw.softR_fin (γ := γ) x y (x.length + y.length) x.length y.length le_rfl hn hm
  obtain ⟨d, hd⟩ :=
    SoftDtw.hardR_fin x y (x.length + y.length) x.length y.length le_rfl hn hm
  have h1 :=
    SoftDtw.softR_le_hardR hγ x y (x.length + y.length) x.length y.length le_rfl
  have h2 :=
    SoftDtw.hardR_le_shift hγ x y (x.length + y.length) x.length y.length le_rfl
  rw [hs, hd] at h1 h2
  refine ⟨s, d, ?_, hd, (le_fin_fin _ _).mp h1, ?_⟩
  · rw [SoftDtw.soft_dtw, if_neg (not_le.mpr hγ), if_neg (by simp [hx, hy]), hs]
  · simp only [F.add] at h2
    have := (le_fin_fin _ _).mp h2
    linarith

theorem claim2_soft_le_hard_witness :
    ∃ s d : ℝ, SoftDtw.soft_dtw [0] [0] 1 = .ok (.fin s) ∧
      SoftDtw.dtw_squared [0] [0] = .fin d ∧ s ≤ d ∧
      d - s ≤ ((([0] : List ℝ).length + ([0] : List ℝ).length : ℕ) : ℝ)
        * 1 * Real.log 3 :=
  claim2_soft_le_hard [0] [0] 1 (by norm_num) (by simp) (by simp)

/-- Claim C10: on single-element sequences Soft-DTW returns exactly the
squared difference, with no `γ`-dependent offset, because the single interior
cell evaluates `softmin3 γ (+∞, +∞, 0)`, which is exactly `0`. -/
theorem claim10_singleton (a b γ : ℝ) (hγ : 0 < γ) :
    SoftDtw.soft_dtw [a] [b] γ = .ok (.fin ((a - b) ^ 2)) ∧
    softmin3 γ .inf .inf (.fin 0) = .fin 0 := by
  have hsm : softmin3 γ .inf .inf (.fin 0) = .fin 0 := by
    rw [softmin3_eq_log (Or.inr (Or.inr ⟨0, rfl⟩))]
    norm_num [F.wt, Real.exp_zero, Real.log_one]
  refine ⟨?_, hsm⟩
  rw [SoftDtw.soft_dtw, if_neg (not_le.mpr hγ), if_neg (by simp)]
  show Except.ok (SoftDtw.softR γ [a] [b] 1 1) = _
  rw [SoftDtw.softR_succ_succ, SoftDtw.softR_zero_succ, SoftDtw.softR_succ_zero,
    SoftDtw.softR_zero_zero, hsm]
  simp [F.add]

theorem claim10_singleton_witness :
    SoftDtw.soft_dtw [0] [1] 1 = .ok (.fin (((0 : ℝ) - 1) ^ 2)) ∧
    softmin3 1 .inf .inf (.fin 0) = .fin 0 :=
  claim10_singleton 0 1 1 (by norm_num)

/-- Claim C8: a cost buffer whose length differs from `n*m` makes
`soft_dtw_cost` return the shape-mismatch error carrying the actual length,
`n`, `m`, and `expected = n*m`, with no value computed. -/
theorem claim8_shape_mismatch (cost : List ℝ) (n m : ℕ) (γ : ℝ) (hγ : 0 < γ)
    (hn : 1 ≤ n) (hm : 1 ≤ m) (hlen : cost.length ≠ n * m) :
    SoftDtw.soft_dtw_cost cost n m γ
      = .error (.invalidCostShape cost.length n m (n * m)) := by
  rw [SoftDtw.soft_dtw_cost, if_neg (not_le.mpr hγ), if_neg (by omega),
    if_pos hlen]

theorem claim8_shape_mismatch_witness :
    SoftDtw.soft_dtw_cost [0, 0, 0, 0, 0] 2 3 1
      = .error (.invalidCostShape 5 2 3 6) :=
  claim8_shape_mismatch [0, 0, 0, 0, 0] 2 3 1 (by norm_num) (by norm_num)
    (by norm_num) (by simp)

/-- Claim C6: the scalar form and the cost-matrix form of Soft-DTW agree when
the cost buffer is the row-major table `cost[i*m+j] = (x[i]-y[j])²`: both run
the identical DP. -/
theorem claim6_scalar_eq_cost (x y : List ℝ) (γ : ℝ) (hγ : 0 < γ)
    (hx : x ≠ []) (hy : y ≠ []) :
    SoftDtw.soft_dtw x y γ
      = SoftDtw.soft_dtw_cost (SoftDtw.sqCost x y) x.length y.length γ := by
  have hn : 1 ≤ x.length := List.length_pos.mpr hx
  have hm : 1 ≤ y.length := List.length_pos.mpr hy
  rw [SoftDtw.soft_dtw, SoftDtw.soft_dtw_cost,
    if_neg (not_le.mpr hγ), if_neg (not_le.mpr hγ),
    if_neg (by simp [hx, hy]), if_neg (by omega),
    if_neg (by simp [SoftDtw.sqCost_length])]
  rw [SoftDtw.softRC_eq_softR (fun i j hi hj => SoftDtw.sqCost_getD hi hj)
    (x.length + y.length) x.length y.length le_rfl le_rfl le_rfl]

theorem claim6_scalar_eq_cost_witness :
    SoftDtw.soft_dtw [0] [0] 1
      = SoftDtw.soft_dtw_cost (SoftDtw.sqCost [0] [0])
          ([0] : List ℝ).length ([0] : List ℝ).length 1 :=
  claim6_scalar_eq_cost [0] [0] 1 (by norm_num) (by simp) (by simp)

noncomputable section

namespace SoftSP

/-- Error type of `src/soft_shortest_path.rs` (`thiserror` enum). -/
inductive Error where
  | invalidGamma (g : ℝ)
  | tooFewNodes (n : ℕ)
  | edgeOutOfBounds (edge_idx efrom eto n : ℕ)
  | notDagOrder (edge_idx efrom eto : ℕ)
  | noPath

/-- Directed edge of the DAG; `efrom`/`eto` model the source's `from`/`to`
fields (`from` is a Lean keyword). Costs are reals, so the source's
`!cost.is_finite()` rejection branch is vacuous in the model. -/
structure Edge where
  efrom : ℕ
  eto : ℕ
  cost : ℝ

/-- The per-edge validation loop of `validate`, carrying the running edge
index `k`: out-of-bounds endpoints are reported first, then `from ≥ to`. -/
def validateFrom (n : ℕ) : ℕ → List Edge → Except Error Unit
  | _, [] => .ok ()
  | k, e :: rest =>
    if e.efrom ≥ n ∨ e.eto ≥ n then .error (.edgeOutOfBounds k e.efrom e.eto n)
    else if e.efrom ≥ e.eto then .error (.notDagOrder k e.efrom e.eto)
    else validateFrom n (k + 1) rest

/-- Embedding of `validate`: at least two nodes, then the edge loop. -/
def validate (n : ℕ) (edges : List Edge) : Except Error Unit :=
  if n < 2 then .error (.tooFewNodes n)
  else validateFrom n 0 edges

/-- The candidate list gathered for node `v` by the forward pass: for each
incoming edge (in edge-list order) whose tail has a finite potential `a`,
push `a + cost`. -/
def fwdCands (edges : List Edge) (tbl : ℕ → F) (v : ℕ) : List ℝ :=
  (edges.filter (fun e => e.eto == v)).filterMap
    (fun e =>
      match tbl e.efrom with
      | .fin a => some (a + e.cost)
      | .inf => none)

/-- The forward DP array of `soft_shortest_path_value` and of the marginals
function after `k` loop iterations, as a function from node index to value:
initially `dp[0] = 0` and `+∞` elsewhere; iteration `k+1` sets node `k+1`
from its incoming candidates (`+∞` when there are none). -/
def fwdTbl (γ : ℝ) (edges : List Edge) : ℕ → (ℕ → F)
  | 0 => fun u => if u = 0 then .fin 0 else .inf
  | k + 1 => fun u =>
    if u = k + 1 then
      let cands := fwdCands edges (fwdTbl γ edges k) (k + 1)
      if cands = [] then .inf else softmin_gamma γ (cands.map F.fin)
    else fwdTbl γ edges k u

/-- Embedding of `soft_shortest_path_value`: validate `γ` and the graph, run
the forward DP over nodes `1..n-1`, report `NoPath` if the sink value is not
finite. -/
def soft_shortest_path_value (n : ℕ) (edges : List Edge) (γ : ℝ) :
    Except Error ℝ :=
  if γ ≤ 0 then .error (.invalidGamma γ)
  else
    match validate n edges with
    | .error e => .error e
    | .ok _ =>
      match fwdTbl γ edges (n - 1) (n - 1) with
      | .inf => .error .noPath
      | .fin v => .ok v

/-- The candidate list gathered for node `u` by the backward pass: for each
outgoing edge whose head has a finite potential `a`, push `cost + a`. -/
def bwdCands (edges : List Edge) (tbl : ℕ → F) (u : ℕ) : List ℝ :=
  (edges.filter (fun e => e.efrom == u)).filterMap
    (fun e =>
      match tbl e.eto with
      | .fin a => some (e.cost + a)
      | .inf => none)

/-- The backward DP array after `k` iterations: initially `bwd[n-1] = 0` and
`+∞` elsewhere; iteration `k` (for `k = 1..n-1`) sets node `n-1-k` from its
outgoing candidates. -/
def bwdTbl (γ : ℝ) (n : ℕ) (edges : List Edge) : ℕ → (ℕ → F)
  | 0 => fun u => if u = n - 1 then .fin 0 else .inf
  | k + 1 => fun u =>
    if u = n - 1 - (k + 1) then
      let cands := bwdCands edges (bwdTbl γ n edges k) (n - 1 - (k + 1))
      if cands = [] then .inf else softmin_gamma γ (cands.map F.fin)
    else bwdTbl γ n edges k u

/-- Body of the marginal loop of `soft_shortest_path_edge_marginals`: for one
edge, `exp (-(fwd[u] + c + bwd[v] - value)/γ)` when both potentials are
finite (clamped to `0` below the `f64::exp` underflow threshold `-745`),
else `0`. -/
def marginalOf (γ : ℝ) (n : ℕ) (edges : List Edge) (value : ℝ) (e : Edge) : ℝ :=
  match fwdTbl γ edges (n - 1) e.efrom, bwdTbl γ n edges (n - 1) e.eto with
  | .fin a, .fin b =>
    if -((a + e.cost + b - value) / γ) < -745 then 0
    else Real.exp (-((a + e.cost + b - value) / γ))
  | _, _ => 0

/-- Embedding of `soft_shortest_path_edge_marginals`: validation, forward
pass, `NoPath` check, backward pass, then one marginal per edge. -/
def soft_shortest_path_edge_marginals (n : ℕ) (edges : List Edge) (γ : ℝ) :
    Except Error (ℝ × List ℝ) :=
  if γ ≤ 0 then .error (.invalidGamma γ)
  else
    match validate n edges with
    | .error e => .error e
    | .ok _ =>
      match fwdTbl γ edges (n - 1) (n - 1) with
      | .inf => .error .noPath
      | .fin value => .ok (value, edges.map (marginalOf γ n edges value))

/-- The Gibbs weight of a single edge. -/
def ew (γ : ℝ) (e : Edge) : ℝ := Real.exp (-e.cost / γ)

/-- Sum of the marginals over the edges leaving the source node `0`, with
marginals aligned positionally with the edge list. -/
def sourceSum (edges : List Edge) (p : List ℝ) : ℝ :=
  ((edges.zip p).map (fun q => if q.1.efrom = 0 then q.2 else 0)).sum

end SoftSP

end

namespace SoftSP

theorem sum_map_add {α : Type} (l : List α) (f g : α → ℝ) :
    (l.map fun x => f x + g x).sum = (l.map f).sum + (l.map g).sum := by
  induction l with
  | nil => simp
  | cons a l ih => simp [ih]; ring

theorem map_sum_congr {α : Type} {l : List α} {f g : α → ℝ}
    (h : ∀ x ∈ l, f x = g x) : (l.map f).sum = (l.map g).sum := by
  induction l with
  | nil => simp
  | cons a l ih =>
    simp only [List.map_cons, List.sum_cons]
    rw [h a (List.mem_cons_self _ _), ih (fun x hx => h x (List.mem_cons_of_mem _ hx))]

theorem sum_map_le {α : Type} {l : List α} {f g : α → ℝ}
    (h : ∀ x ∈ l, f x ≤ g x) : (l.map f).sum ≤ (l.map g).sum := by
  induction l with
  | nil => simp
  | cons a l ih =>
    simp only [List.map_cons, List.sum_cons]
    have := h a (List.mem_cons_self _ _)
    have := ih (fun x hx => h x (List.mem_cons_of_mem _ hx))
    linarith

theorem fwdTbl_zero (γ : ℝ) (edges : List Edge) (u : ℕ) :
    fwdTbl γ edges 0 u = if u = 0 then F.fin 0 else F.inf := rfl

theorem fwdTbl_succ (γ : ℝ) (edges : List Edge) (k u : ℕ) :
    fwdTbl γ edges (k + 1) u =
      if u = k + 1 then
        (if fwdCands edges (fwdTbl γ edges k) (k + 1) = [] then F.inf
         else softmin_gamma γ ((fwdCands edges (fwdTbl γ edges k) (k + 1)).map F.fin))
      else fwdTbl γ edges k u := rfl

theorem fwdTbl_stable (γ : ℝ) (edges : List Edge) :
    ∀ K k u, k ≤ K → u ≤ k → fwdTbl γ edges K u = fwdTbl γ edges k u := by
  intro K
  induction K with
  | zero =>
    intro k u hk _
    have : k = 0 := by omega
    subst this
    rfl
  | succ K ih =>
    intro k u hk hu
    rcases Nat.eq_or_lt_of_le hk with heq | hlt
    · subst heq; rfl
    · rw [fwdTbl_succ, if_neg (by omega)]
      exact ih k u (by omega) hu

theorem fwdTbl_beyond (γ : ℝ) (edges : List Edge) :
    ∀ k u, k < u → fwdTbl γ edges k u = .inf := by
  intro k
  induction k with
  | zero => intro u h; rw [fwdTbl_zero, if_neg (by omega)]
  | succ k ih =>
    intro u h
    rw [fwdTbl_succ, if_neg (by omega)]
    exact ih u (by omega)

theorem fwdTbl_source (γ : ℝ) (edges : List Edge) (K : ℕ) :
    fwdTbl γ edges K 0 = .fin 0 := by
  rw [fwdTbl_stable γ edges K 0 0 (by omega) le_rfl, fwdTbl_zero, if_pos rfl]

theorem bwdTbl_zero (γ : ℝ) (n : ℕ) (edges : List Edge) (u : ℕ) :
    bwdTbl γ n edges 0 u = if u = n - 1 then F.fin 0 else F.inf := rfl

theorem bwdTbl_succ (γ : ℝ) (n : ℕ) (edges : List Edge) (k u : ℕ) :
    bwdTbl γ n edges (k + 1) u =
      if u = n - 1 - (k + 1) then
        (if bwdCands edges (bwdTbl γ n edges k) (n - 1 - (k + 1)) = [] then F.inf
         else softmin_gamma γ
           ((bwdCands edges (bwdTbl γ n edges k) (n - 1 - (k + 1))).map F.fin))
      else bwdTbl γ n edges k u := rfl

theorem bwdTbl_stable (γ : ℝ) (n : ℕ) (edges : List Edge) :
    ∀ K k u, k ≤ K → K ≤ n - 1 → n - 1 - k ≤ u →
      bwdTbl γ n edges K u = bwdTbl γ n edges k u := by
  intro K
  induction K with
  | zero =>
    intro k u hk _ _
    have : k = 0 := by omega
    subst this
    rfl
  | succ K ih =>
    intro k u hk hK hu
    rcases Nat.eq_or_lt_of_le hk with heq | hlt
    · subst heq; rfl
    · rw [bwdTbl_succ, if_neg (by omega)]
      exact ih k u (by omega) (by omega) hu

theorem bwdTbl_beyond (γ : ℝ) (n : ℕ) (edges : List Edge) :
    ∀ k u, u < n - 1 - k → bwdTbl γ n edges k u = .inf := by
  intro k
  induction k with
  | zero => intro u h; rw [bwdTbl_zero, if_neg (by omega)]
  | succ k ih =>
    intro u h
    rw [bwdTbl_succ, if_neg (by omega)]
    exact ih u (by omega)

theorem bwdTbl_sink (γ : ℝ) (n : ℕ) (edges : List Edge) (hn : 2 ≤ n) :
    ∀ k, k ≤ n - 1 → bwdTbl γ n edges k (n - 1) = .fin 0 := by
  intro k
  induction k with
  | zero => intro _; rw [bwdTbl_zero, if_pos rfl]
  | succ k ih =>
    intro hk
    rw [bwdTbl_succ, if_neg (by omega)]
    exact ih (by omega)

theorem nodeW {γ : ℝ} (hγ : 0 < γ) (cands : List ℝ) :
    F.wt γ (if cands = [] then F.inf else softmin_gamma γ (cands.map F.fin))
      = (cands.map fun a => Real.exp (-a / γ)).sum := by
  cases cands with
  | nil => simp [F.wt]
  | cons r rest =>
    rw [if_neg (by simp)]
    have hmem : F.fin r ∈ (r :: rest).map F.fin := by simp
    rw [softmin_gamma_eq_log hmem]
    have hS : 0 < sumW γ ((r :: rest).map F.fin) := sumW_pos hmem
    simp only [F.wt]
    have harg : -(-γ * Real.log (sumW γ ((r :: rest).map F.fin))) / γ
        = Real.log (sumW γ ((r :: rest).map F.fin)) := by
      field_simp
    rw [harg, Real.exp_log hS, sumW_map_fin]

theorem fwdCands_weight {γ : ℝ} (edges : List Edge) (tbl : ℕ → F) (v : ℕ) :
    ((fwdCands edges tbl v).map fun a => Real.exp (-a / γ)).sum
      = (edges.map fun e =>
          if e.eto = v then F.wt γ (tbl e.efrom) * ew γ e else 0).sum := by
  induction edges with
  | nil => simp [fwdCands]
  | cons e rest ih =>
    by_cases hv : e.eto = v
    · cases hef : tbl e.efrom with
      | fin a =>
        have hstep : fwdCands (e :: rest) tbl v = (a + e.cost) :: fwdCands rest tbl v := by
          simp [fwdCands, List.filter_cons, hv, List.filterMap_cons, hef]
        rw [hstep, List.map_cons, List.sum_cons, ih,
          List.map_cons, List.sum_cons, if_pos hv]
        congr 1
        simp only [F.wt, hef, ew]
        rw [← Real.exp_add]
        congr 1
        field_simp
        ring
      | inf =>
        have hstep : fwdCands (e :: rest) tbl v = fwdCands rest tbl v := by
          simp [fwdCands, List.filter_cons, hv, List.filterMap_cons, hef]
        rw [hstep, ih, List.map_cons, List.sum_cons, if_pos hv]
        simp [F.wt, hef]
    · have hstep : fwdCands (e :: rest) tbl v = fwdCands rest tbl v := by
        simp [fwdCands, List.filter_cons, hv]
      rw [hstep, ih, List.map_cons, List.sum_cons, if_neg hv]
      simp

theorem bwdCands_weight {γ : ℝ} (edges : List Edge) (tbl : ℕ → F) (u : ℕ) :
    ((bwdCands edges tbl u).map fun a => Real.exp (-a / γ)).sum
      = (edges.map fun e =>
          if e.efrom = u then ew γ e * F.wt γ (tbl e.eto) else 0).sum := by
  induction edges with
  | nil => simp [bwdCands]
  | cons e rest ih =>
    by_cases hv : e.efrom = u
    · cases hef : tbl e.eto with
      | fin a =>
        have hstep : bwdCands (e :: rest) tbl u = (e.cost + a) :: bwdCands rest tbl u := by
          simp [bwdCands, List.filter_cons, hv, List.filterMap_cons, hef]
        rw [hstep, List.map_cons, List.sum_cons, ih,
          List.map_cons, List.sum_cons, if_pos hv]
        congr 1
        simp only [F.wt, hef, ew]
        rw [← Real.exp_add]
        congr 1
        field_simp
        ring
      | inf =>
        have hstep : bwdCands (e :: rest) tbl u = bwdCands rest tbl u := by
          simp [bwdCands, List.filter_cons, hv, List.filterMap_cons, hef]
        rw [hstep, ih, List.map_cons, List.sum_cons, if_pos hv]
        simp [F.wt, hef]
    · have hstep : bwdCands (e :: rest) tbl u = bwdCands rest tbl u := by
        simp [bwdCands, List.filter_cons, hv]
      rw [hstep, ih, List.map_cons, List.sum_cons, if_neg hv]
      simp

end SoftSP

namespace SoftSP

/-- Forward partition weight `exp (-fwd[v]/γ)` of a node under the final
forward table (`0` for unreachable nodes). -/
noncomputable def Wf (γ : ℝ) (n : ℕ) (edges : List Edge) (v : ℕ) : ℝ :=
  F.wt γ (fwdTbl γ edges (n - 1) v)

/-- Backward partition weight `exp (-bwd[u]/γ)` under the final backward
table. -/
noncomputable def Wb (γ : ℝ) (n : ℕ) (edges : List Edge) (u : ℕ) : ℝ :=
  F.wt γ (bwdTbl γ n edges (n - 1) u)

theorem Wf_source (γ : ℝ) (hγ : 0 < γ) (n : ℕ) (edges : List Edge) :
    Wf γ n edges 0 = 1 := by
  rw [Wf, fwdTbl_source]
  simp [F.wt]

theorem Wb_sink (γ : ℝ) (hγ : 0 < γ) (n : ℕ) (edges : List Edge) (hn : 2 ≤ n) :
    Wb γ n edges (n - 1) = 1 := by
  rw [Wb, bwdTbl_sink γ n edges hn (n - 1) le_rfl]
  simp [F.wt]

theorem Wf_nonneg (γ : ℝ) (n : ℕ) (edges : List Edge) (v : ℕ) :
    0 ≤ Wf γ n edges v := wt_nonneg _ _

theorem Wb_nonneg (γ : ℝ) (n : ℕ) (edges : List Edge) (u : ℕ) :
    0 ≤ Wb γ n edges u := wt_nonneg _ _

/-- Forward weight recurrence: for every processed node `1 ≤ v ≤ n-1`,
`Wf v = Σ_{e : u→v} Wf u · exp (-c_e/γ)` over the edge list. -/
theorem Wf_rec {γ : ℝ} (hγ : 0 < γ) {n : ℕ} {edges : List Edge}
    (hvalid : ∀ e ∈ edges, e.efrom < e.eto) (v : ℕ)
    (h1 : 1 ≤ v) (hvn : v ≤ n - 1) :
    Wf γ n edges v
      = (edges.map fun e =>
          if e.eto = v then Wf γ n edges e.efrom * ew γ e else 0).sum := by
  obtain ⟨k, rfl⟩ : ∃ k, v = k + 1 := ⟨v - 1, by omega⟩
  rw [Wf, fwdTbl_stable γ edges (n - 1) (k + 1) (k + 1) hvn le_rfl,
    fwdTbl_succ, if_pos rfl, nodeW hγ, fwdCands_weight]
  apply map_sum_congr
  intro e he
  by_cases hto : e.eto = k + 1
  · rw [if_pos hto, if_pos hto, Wf,
      fwdTbl_stable γ edges (n - 1) k e.efrom (by omega)
        (by have := hvalid e he; omega)]
  · rw [if_neg hto, if_neg hto]

/-- Backward weight recurrence: for every node `u < n-1`,
`Wb u = Σ_{e : u→w} exp (-c_e/γ) · Wb w` over the edge list. -/
theorem Wb_rec {γ : ℝ} (hγ : 0 < γ) {n : ℕ} {edges : List Edge}
    (hvalid : ∀ e ∈ edges, e.efrom < e.eto ∧ e.eto ≤ n - 1)
    (u : ℕ) (hu : u < n - 1) :
    Wb γ n edges u
      = (edges.map fun e =>
          if e.efrom = u then ew γ e * Wb γ n edges e.eto else 0).sum := by
  have hj1 : 1 ≤ n - 1 - u := by omega
  obtain ⟨j, hj⟩ : ∃ j, n - 1 - u = j + 1 := ⟨n - 1 - u - 1, by omega⟩
  have hu' : u = n - 1 - (j + 1) := by omega
  have hjn : j + 1 ≤ n - 1 := by omega
  rw [Wb, hu',
    bwdTbl_stable γ n edges (n - 1) (j + 1) (n - 1 - (j + 1)) hjn le_rfl le_rfl,
    bwdTbl_succ, if_pos rfl, nodeW hγ, bwdCands_weight]
  apply map_sum_congr
  intro e he
  by_cases hfrom : e.efrom = n - 1 - (j + 1)
  · rw [if_pos hfrom, if_pos hfrom, Wb,
      bwdTbl_stable γ n edges (n - 1) j e.eto (by omega) (by omega)
        (by have := hvalid e he; omega)]
  · rw [if_neg hfrom, if_neg hfrom]

/-- Cut sum: total weight of edges crossing the node cut
`{u < k} / {v ≥ k}`, with forward weight on the tail side and backward
weight on the head side. -/
noncomputable def cutSum (γ : ℝ) (n : ℕ) (edges : List Edge) (k : ℕ) : ℝ :=
  (edges.map fun e =>
    if e.efrom < k ∧ k ≤ e.eto then
      Wf γ n edges e.efrom * ew γ e * Wb γ n edges e.eto
    else 0).sum

theorem cut_indicator {a b : ℕ} (hab : a < b) (k : ℕ) (T : ℝ) :
    (if a < k + 1 ∧ k + 1 ≤ b then T else 0)
      = (if a < k ∧ k ≤ b then T else 0) + (if a = k then T else 0)
        - (if b = k then T else 0) := by
  split_ifs <;> first | (exfalso; omega) | ring1

theorem sum_map_add_sub {α : Type} (l : List α) (f g h t : α → ℝ)
    (hpt : ∀ x ∈ l, f x = g x + h x - t x) :
    (l.map f).sum = (l.map g).sum + (l.map h).sum - (l.map t).sum := by
  induction l with
  | nil => simp
  | cons a l ih =>
    simp only [List.map_cons, List.sum_cons]
    rw [hpt a (List.mem_cons_self _ _),
      ih (fun x hx => hpt x (List.mem_cons_of_mem _ hx))]
    ring

theorem sum_factor_from (γ : ℝ) (n : ℕ) (edges : List Edge) (k : ℕ) :
    (edges.map fun e =>
      if e.efrom = k then
        Wf γ n edges e.efrom * ew γ e * Wb γ n edges e.eto else 0).sum
      = Wf γ n edges k
        * (edges.map fun e =>
            if e.efrom = k then ew γ e * Wb γ n edges e.eto else 0).sum := by
  rw [← List.sum_map_mul_left]
  apply map_sum_congr
  intro e _
  by_cases h : e.efrom = k
  · rw [if_pos h, if_pos h, h]; ring
  · rw [if_neg h, if_neg h]; ring

theorem sum_factor_to (γ : ℝ) (n : ℕ) (edges : List Edge) (k : ℕ) :
    (edges.map fun e =>
      if e.eto = k then
        Wf γ n edges e.efrom * ew γ e * Wb γ n edges e.eto else 0).sum
      = (edges.map fun e =>
          if e.eto = k then Wf γ n edges e.efrom * ew γ e else 0).sum
        * Wb γ n edges k := by
  rw [← List.sum_map_mul_right]
  apply map_sum_congr
  intro e _
  by_cases h : e.eto = k
  · rw [if_pos h, if_pos h, h]
  · rw [if_neg h, if_neg h]; ring

theorem cut_step {γ : ℝ} (hγ : 0 < γ) {n : ℕ} {edges : List Edge}
    (hvalid : ∀ e ∈ edges, e.efrom < e.eto ∧ e.eto ≤ n - 1)
    (k : ℕ) (h1 : 1 ≤ k) (hk : k ≤ n - 2) :
    cutSum γ n edges (k + 1) = cutSum γ n edges k := by
  have hn3 : 2 ≤ n := by omega
  have hsplit := sum_map_add_sub edges
    (fun e => if e.efrom < k + 1 ∧ k + 1 ≤ e.eto then
      Wf γ n edges e.efrom * ew γ e * Wb γ n edges e.eto else 0)
    (fun e => if e.efrom < k ∧ k ≤ e.eto then
      Wf γ n edges e.efrom * ew γ e * Wb γ n edges e.eto else 0)
    (fun e => if e.efrom = k then
      Wf γ n edges e.efrom * ew γ e * Wb γ n edges e.eto else 0)
    (fun e => if e.eto = k then
      Wf γ n edges e.efrom * ew γ e * Wb γ n edges e.eto else 0)
    (fun e he => cut_indicator (hvalid e he).1 k _)
  rw [cutSum, cutSum, hsplit, sum_factor_from, sum_factor_to,
    ← Wb_rec hγ hvalid k (by omega), ← Wf_rec hγ (fun e he => (hvalid e he).1) k h1 (by omega)]
  ring

theorem cut_bottom {γ : ℝ} (hγ : 0 < γ) {n : ℕ} {edges : List Edge}
    (hvalid : ∀ e ∈ edges, e.efrom < e.eto ∧ e.eto ≤ n - 1) (hn : 2 ≤ n) :
    cutSum γ n edges 1 = Wb γ n edges 0 := by
  rw [cutSum, Wb_rec hγ hvalid 0 (by omega)]
  apply map_sum_congr
  intro e he
  by_cases h : e.efrom = 0
  · rw [if_pos ⟨by omega, by have := (hvalid e he).1; omega⟩, if_pos h, h,
      Wf_source γ hγ]
    ring
  · rw [if_neg (by omega), if_neg h]

theorem cut_top {γ : ℝ} (hγ : 0 < γ) {n : ℕ} {edges : List Edge}
    (hvalid : ∀ e ∈ edges, e.efrom < e.eto ∧ e.eto ≤ n - 1) (hn : 2 ≤ n) :
    cutSum γ n edges (n - 1) = Wf γ n edges (n - 1) := by
  rw [cutSum, Wf_rec hγ (fun e he => (hvalid e he).1) (n - 1) (by omega) le_rfl]
  apply map_sum_congr
  intro e he
  by_cases h : e.eto = n - 1
  · rw [if_pos ⟨by have := (hvalid e he).1; omega, by omega⟩, if_pos h, h,
      Wb_sink γ hγ n edges hn]
    ring
  · rw [if_neg (by push_neg; intro _; have := (hvalid e he).2; omega), if_neg h]

theorem cut_const {γ : ℝ} (hγ : 0 < γ) {n : ℕ} {edges : List Edge}
    (hvalid : ∀ e ∈ edges, e.efrom < e.eto ∧ e.eto ≤ n - 1) (hn : 2 ≤ n) :
    ∀ k, 1 ≤ k → k ≤ n - 1 → cutSum γ n edges k = Wb γ n edges 0 := by
  intro k
  induction k with
  | zero => omega
  | succ k ih =>
    intro h1 hk
    rcases Nat.eq_or_lt_of_le h1 with heq | hlt
    · rw [← heq]
      exact cut_bottom hγ hvalid hn
    · rw [cut_step hγ hvalid k (by omega) (by omega)]
      exact ih (by omega) (by omega)

/-- The forward and backward partition functions agree:
`Wb 0 = Wf (n-1)` (both are the total Gibbs weight of all source-sink
paths). -/
theorem Wb_zero_eq_Wf_sink {γ : ℝ} (hγ : 0 < γ) {n : ℕ} {edges : List Edge}
    (hvalid : ∀ e ∈ edges, e.efrom < e.eto ∧ e.eto ≤ n - 1) (hn : 2 ≤ n) :
    Wb γ n edges 0 = Wf γ n edges (n - 1) := by
  rw [← cut_top hγ hvalid hn, cut_const hγ hvalid hn (n - 1) (by omega) le_rfl]

end SoftSP

namespace SoftSP

theorem validateFrom_nil (n k : ℕ) : validateFrom n k [] = .ok () := rfl

theorem validateFrom_cons (n k : ℕ) (e : Edge) (rest : List Edge) :
    validateFrom n k (e :: rest) =
      if e.efrom ≥ n ∨ e.eto ≥ n then .error (.edgeOutOfBounds k e.efrom e.eto n)
      else if e.efrom ≥ e.eto then .error (.notDagOrder k e.efrom e.eto)
      else validateFrom n (k + 1) rest := rfl

theorem validateFrom_ok {n : ℕ} :
    ∀ (l : List Edge) (k : ℕ), validateFrom n k l = .ok () →
      ∀ e ∈ l, e.efrom < n ∧ e.eto < n ∧ e.efrom < e.eto := by
  intro l
  induction l with
  | nil => intro k _ e he; simp at he
  | cons e rest ih =>
    intro k h e' he'
    rw [validateFrom_cons] at h
    by_cases h1 : e.efrom ≥ n ∨ e.eto ≥ n
    · rw [if_pos h1] at h; exact absurd h (by simp)
    · rw [if_neg h1] at h
      by_cases h2 : e.efrom ≥ e.eto
      · rw [if_pos h2] at h; exact absurd h (by simp)
      · rw [if_neg h2] at h
        rcases List.mem_cons.mp he' with heq | hmem
        · subst heq
          push_neg at h1 h2
          exact ⟨h1.1, h1.2, h2⟩
        · exact ih (k + 1) h e' hmem

theorem validate_ok {n : ℕ} {edges : List Edge}
    (h : validate n edges = .ok ()) :
    2 ≤ n ∧ ∀ e ∈ edges, e.efrom < n ∧ e.eto < n ∧ e.efrom < e.eto := by
  rw [validate] at h
  by_cases h2 : n < 2
  · rw [if_pos h2] at h; exact absurd h (by simp)
  · rw [if_neg h2] at h
    exact ⟨by omega, validateFrom_ok edges 0 h⟩

theorem marginals_ok_inv {n : ℕ} {edges : List Edge} {γ v : ℝ} {p : List ℝ}
    (h : soft_shortest_path_edge_marginals n edges γ = .ok (v, p)) :
    0 < γ ∧ validate n edges = .ok () ∧
      fwdTbl γ edges (n - 1) (n - 1) = .fin v ∧
      p = edges.map (marginalOf γ n edges v) := by
  rw [soft_shortest_path_edge_marginals] at h
  by_cases hγ0 : γ ≤ 0
  · rw [if_pos hγ0] at h; exact absurd h (by simp)
  · rw [if_neg hγ0] at h
    cases hval : validate n edges with
    | error e => rw [hval] at h; exact absurd h (by simp)
    | ok u =>
      cases u
      rw [hval] at h
      simp only at h
      cases hfv : fwdTbl γ edges (n - 1) (n - 1) with
      | inf => rw [hfv] at h; exact absurd h (by simp)
      | fin value =>
        rw [hfv] at h
        simp only [Except.ok.injEq, Prod.mk.injEq] at h
        obtain ⟨hv, hp⟩ := h
        subst hv
        exact ⟨not_le.mp hγ0, rfl, rfl, hp.symm⟩

theorem value_ok_inv {n : ℕ} {edges : List Edge} {γ v : ℝ}
    (h : soft_shortest_path_value n edges γ = .ok v) :
    0 < γ ∧ validate n edges = .ok () ∧
      fwdTbl γ edges (n - 1) (n - 1) = .fin v := by
  rw [soft_shortest_path_value] at h
  by_cases hγ0 : γ ≤ 0
  · rw [if_pos hγ0] at h; exact absurd h (by simp)
  · rw [if_neg hγ0] at h
    cases hval : validate n edges with
    | error e => rw [hval] at h; exact absurd h (by simp)
    | ok u =>
      cases u
      rw [hval] at h
      simp only at h
      cases hfv : fwdTbl γ edges (n - 1) (n - 1) with
      | inf => rw [hfv] at h; exact absurd h (by simp)
      | fin value =>
        rw [hfv] at h
        simp only [Except.ok.injEq] at h
        subst h
        exact ⟨not_le.mp hγ0, rfl, rfl⟩

end SoftSP

namespace SoftSP

theorem sum_map_sub {α : Type} (l : List α) (f g : α → ℝ) :
    (l.map fun x => f x - g x).sum = (l.map f).sum - (l.map g).sum := by
  induction l with
  | nil => simp
  | cons a l ih => simp [ih]; ring

theorem sourceSum_map (edges : List Edge) (pfn : Edge → ℝ) :
    sourceSum edges (edges.map pfn)
      = (edges.map fun e => if e.efrom = 0 then pfn e else 0).sum := by
  rw [sourceSum]
  induction edges with
  | nil => simp
  | cons e rest ih =>
    simp only [List.map_cons, List.zip_cons_cons, List.sum_cons]
    rw [ih]

theorem Wt_pos {γ : ℝ} {n : ℕ} {edges : List Edge} {v : ℝ}
    (hfv : fwdTbl γ edges (n - 1) (n - 1) = .fin v) :
    0 < Wf γ n edges (n - 1) := by
  rw [Wf, hfv]
  exact Real.exp_pos _

theorem marginalOf_facts {γ : ℝ} (hγ : 0 < γ) {n : ℕ} {edges : List Edge} {v : ℝ}
    (hfv : fwdTbl γ edges (n - 1) (n - 1) = .fin v) (e : Edge) :
    0 ≤ marginalOf γ n edges v e ∧
    marginalOf γ n edges v e ≤
      Wf γ n edges e.efrom * ew γ e * Wb γ n edges e.eto / Wf γ n edges (n - 1) ∧
    Wf γ n edges e.efrom * ew γ e * Wb γ n edges e.eto / Wf γ n edges (n - 1)
      ≤ marginalOf γ n edges v e + Real.exp (-745) := by
  have hWt : Wf γ n edges (n - 1) = Real.exp (-v / γ) := by rw [Wf, hfv]; rfl
  have hWtpos : 0 < Wf γ n edges (n - 1) := Wt_pos hfv
  have hexp745 : (0:ℝ) ≤ Real.exp (-745) := (Real.exp_pos _).le
  unfold marginalOf
  cases hfa : fwdTbl γ edges (n - 1) e.efrom with
  | inf =>
    have hN : Wf γ n edges e.efrom = 0 := by rw [Wf, hfa]; rfl
    rw [hN]
    cases hfb : bwdTbl γ n edges (n - 1) e.eto <;>
      simp [hexp745, le_div_iff hWtpos, div_le_iff hWtpos]
  | fin a =>
    cases hfb : bwdTbl γ n edges (n - 1) e.eto with
    | inf =>
      have hN : Wb γ n edges e.eto = 0 := by rw [Wb, hfb]; rfl
      rw [hN]
      simp [hexp745, le_div_iff hWtpos, div_le_iff hWtpos]
    | fin b =>
      have hNz : Wf γ n edges e.efrom * ew γ e * Wb γ n edges e.eto
          / Wf γ n edges (n - 1)
          = Real.exp (-((a + e.cost + b - v) / γ)) := by
        rw [Wf, hfa, Wb, hfb, hWt]
        show Real.exp (-a / γ) * ew γ e * Real.exp (-b / γ)
            / Real.exp (-v / γ) = _
        rw [ew, ← Real.exp_add, ← Real.exp_add, ← Real.exp_sub]
        congr 1
        field_simp
        ring
      rw [hNz]
      dsimp only
      by_cases hclamp : -((a + e.cost + b - v) / γ) < -745
      · rw [if_pos hclamp]
        refine ⟨le_refl 0, (Real.exp_pos _).le, ?_⟩
        rw [zero_add]
        exact (Real.exp_le_exp.mpr hclamp.le)
      · rw [if_neg hclamp]
        exact ⟨(Real.exp_pos _).le, le_refl _,
          le_add_of_nonneg_right hexp745⟩

theorem term_le_total {γ : ℝ} (hγ : 0 < γ) {n : ℕ} {edges : List Edge}
    (hvalid : ∀ e ∈ edges, e.efrom < e.eto ∧ e.eto ≤ n - 1) (hn : 2 ≤ n)
    {e : Edge} (he : e ∈ edges) :
    Wf γ n edges e.efrom * ew γ e * Wb γ n edges e.eto
      ≤ Wf γ n edges (n - 1) := by
  have hcut : cutSum γ n edges (e.efrom + 1) = Wf γ n edges (n - 1) := by
    rw [cut_const hγ hvalid hn (e.efrom + 1) (by omega)
        (by have := hvalid e he; omega),
      Wb_zero_eq_Wf_sink hγ hvalid hn]
  rw [← hcut, cutSum]
  have h0 : ∀ x ∈ edges,
      0 ≤ (fun e' => if e'.efrom < e.efrom + 1 ∧ e.efrom + 1 ≤ e'.eto then
        Wf γ n edges e'.efrom * ew γ e' * Wb γ n edges e'.eto else 0) x := by
    intro x _
    dsimp only
    by_cases hx : x.efrom < e.efrom + 1 ∧ e.efrom + 1 ≤ x.eto
    · rw [if_pos hx]
      exact mul_nonneg (mul_nonneg (Wf_nonneg _ _ _ _) (Real.exp_pos _).le)
        (Wb_nonneg _ _ _ _)
    · rw [if_neg hx]
  have hterm := sum_map_single_le h0 he
  rw [if_pos ⟨Nat.lt_succ_self _, (hvalid e he).1⟩] at hterm
  exact hterm

theorem source_mass {γ : ℝ} (hγ : 0 < γ) {n : ℕ} {edges : List Edge}
    (hvalid : ∀ e ∈ edges, e.efrom < e.eto ∧ e.eto ≤ n - 1) (hn : 2 ≤ n) :
    (edges.map fun e => if e.efrom = 0 then
      Wf γ n edges e.efrom * ew γ e * Wb γ n edges e.eto else 0).sum
      = Wf γ n edges (n - 1) := by
  rw [sum_factor_from γ n edges 0, Wf_source γ hγ, one_mul,
    ← Wb_rec hγ hvalid 0 (by omega), Wb_zero_eq_Wf_sink hγ hvalid hn]

end SoftSP

/-- Claim C3: for every valid input accepted by
`soft_shortest_path_edge_marginals`, every entry of the returned marginal
vector lies in `[0, 1]` (here exactly), and the sum of the marginals over the
edges leaving the source node `0` equals `1` up to the quantified
floating-point clamp tolerance `|edges|·exp (-745)`. -/
theorem claim3_marginal_probabilities {n : ℕ} {edges : List SoftSP.Edge}
    {γ v : ℝ} {p : List ℝ}
    (h : SoftSP.soft_shortest_path_edge_marginals n edges γ = .ok (v, p)) :
    (∀ k, k < p.length → 0 ≤ p.getD k 0 ∧ p.getD k 0 ≤ 1) ∧
    1 - (edges.length : ℝ) * Real.exp (-745) ≤ SoftSP.sourceSum edges p ∧
    SoftSP.sourceSum edges p ≤ 1 := by
  obtain ⟨hγ, hval, hfv, hp⟩ := SoftSP.marginals_ok_inv h
  obtain ⟨hn, hstruct⟩ := SoftSP.validate_ok hval
  have hvalid : ∀ e ∈ edges, e.efrom < e.eto ∧ e.eto ≤ n - 1 := by
    intro e he
    have := hstruct e he
    exact ⟨this.2.2, by omega⟩
  have hWtpos := SoftSP.Wt_pos hfv
  have hWtne : SoftSP.Wf γ n edges (n - 1) ≠ 0 := ne_of_gt hWtpos
  subst hp
  have hsrc := SoftSP.sourceSum_map edges (SoftSP.marginalOf γ n edges v)
  have hSstar : (edges.map fun e => if e.efrom = 0 then
      SoftSP.Wf γ n edges e.efrom * SoftSP.ew γ e * SoftSP.Wb γ n edges e.eto
        / SoftSP.Wf γ n edges (n - 1) else 0).sum = 1 := by
    have hpt : ∀ e ∈ edges,
        (if e.efrom = 0 then
          SoftSP.Wf γ n edges e.efrom * SoftSP.ew γ e * SoftSP.Wb γ n edges e.eto
            / SoftSP.Wf γ n edges (n - 1) else 0)
        = (if e.efrom = 0 then
            SoftSP.Wf γ n edges e.efrom * SoftSP.ew γ e
              * SoftSP.Wb γ n edges e.eto else 0)
          * (SoftSP.Wf γ n edges (n - 1))⁻¹ := by
      intro e _
      by_cases hef : e.efrom = 0
      · rw [if_pos hef, if_pos hef, div_eq_mul_inv]
      · rw [if_neg hef, if_neg hef, zero_mul]
    rw [SoftSP.map_sum_congr hpt, List.sum_map_mul_right,
      SoftSP.source_mass hγ hvalid hn, mul_inv_cancel₀ hWtne]
  refine ⟨?_, ?_, ?_⟩
  · intro k hk
    rw [List.length_map] at hk
    have hgd : (edges.map (SoftSP.marginalOf γ n edges v)).getD k 0
        = SoftSP.marginalOf γ n edges v edges[k] := by
      rw [List.getD_eq_getElem?_getD, List.getElem?_map,
        List.getElem?_eq_getElem hk]
      rfl
    have hmem : edges[k] ∈ edges := List.getElem_mem hk
    obtain ⟨h0, hub, _⟩ := SoftSP.marginalOf_facts hγ hfv edges[k]
    refine ⟨hgd ▸ h0, ?_⟩
    rw [hgd]
    refine hub.trans ?_
    rw [div_le_one hWtpos]
    exact SoftSP.term_le_total hγ hvalid hn hmem
  · rw [hsrc]
    have hdiff : (edges.map fun e => if e.efrom = 0 then
        SoftSP.Wf γ n edges e.efrom * SoftSP.ew γ e * SoftSP.Wb γ n edges e.eto
          / SoftSP.Wf γ n edges (n - 1) else 0).sum
        - (edges.map fun e => if e.efrom = 0 then
            SoftSP.marginalOf γ n edges v e else 0).sum
        ≤ (edges.length : ℝ) * Real.exp (-745) := by
      rw [← SoftSP.sum_map_sub]
      have hbd : ∀ x ∈ (edges.map fun e =>
          (if e.efrom = 0 then
            SoftSP.Wf γ n edges e.efrom * SoftSP.ew γ e
              * SoftSP.Wb γ n edges e.eto / SoftSP.Wf γ n edges (n - 1) else 0)
          - (if e.efrom = 0 then SoftSP.marginalOf γ n edges v e else 0)),
          x ≤ Real.exp (-745) := by
        intro x hx
        obtain ⟨e, he, rfl⟩ := List.mem_map.mp hx
        by_cases hef : e.efrom = 0
        · rw [if_pos hef, if_pos hef]
          obtain ⟨_, _, hlow⟩ := SoftSP.marginalOf_facts hγ hfv e
          linarith
        · rw [if_neg hef, if_neg hef]
          simp [(Real.exp_pos (-745 : ℝ)).le]
      have := List.sum_le_card_nsmul _ _ hbd
      rwa [List.length_map, nsmul_eq_mul] at this
    linarith
  · rw [hsrc]
    have hle : (edges.map fun e => if e.efrom = 0 then
        SoftSP.marginalOf γ n edges v e else 0).sum
        ≤ (edges.map fun e => if e.efrom = 0 then
            SoftSP.Wf γ n edges e.efrom * SoftSP.ew γ e
              * SoftSP.Wb γ n edges e.eto / SoftSP.Wf γ n edges (n - 1)
          else 0).sum := by
      apply SoftSP.sum_map_le
      intro e _
      by_cases hef : e.efrom = 0
      · rw [if_pos hef, if_pos hef]
        exact (SoftSP.marginalOf_facts hγ hfv e).2.1
      · rw [if_neg hef, if_neg hef]
    linarith

section DiamondEval

theorem softmin_gamma_single {γ : ℝ} (hγ : 0 < γ) (a : ℝ) :
    softmin_gamma γ [.fin a] = .fin a := by
  rw [softmin_gamma_eq_log (show F.fin a ∈ [F.fin a] by simp)]
  congr 1
  have hs : sumW γ [F.fin a] = Real.exp (-a / γ) := by
    simp [sumW, F.wt]
  rw [hs, Real.log_exp]
  field_simp

theorem softmin_gamma_pair {γ : ℝ} (hγ : 0 < γ) (a b : ℝ) :
    softmin_gamma γ [.fin a, .fin b]
      = .fin (-γ * Real.log (Real.exp (-a / γ) + Real.exp (-b / γ))) := by
  rw [softmin_gamma_eq_log (show F.fin a ∈ [F.fin a, F.fin b] by simp)]
  congr 2
  simp [sumW, F.wt]

/-- The diamond graph of the `diamond_graph_matches_softmax_over_path_costs`
test: two source-sink paths `0→1→3` (cost 3) and `0→2→3` (cost 7). -/
def diamondEdges : List SoftSP.Edge :=
  [⟨0, 1, 1⟩, ⟨1, 3, 2⟩, ⟨0, 2, 3⟩, ⟨2, 3, 4⟩]

theorem diamond_validate : SoftSP.validate 4 diamondEdges = .ok () := rfl

theorem diamond_fwd0 : SoftSP.fwdTbl (1/2) diamondEdges 3 0 = .fin 0 :=
  SoftSP.fwdTbl_source _ _ _

theorem diamond_fwd1 : SoftSP.fwdTbl (1/2) diamondEdges 3 1 = .fin 1 := by
  rw [SoftSP.fwdTbl_stable (1/2) diamondEdges 3 1 1 (by omega) le_rfl,
    SoftSP.fwdTbl_succ, if_pos rfl]
  have hc : SoftSP.fwdCands diamondEdges (SoftSP.fwdTbl (1/2) diamondEdges 0) 1
      = [0 + 1] := by
    simp [SoftSP.fwdCands, diamondEdges, SoftSP.fwdTbl_zero, List.filter,
      List.filterMap]
  rw [hc, if_neg (by simp)]
  have := softmin_gamma_single (show (0:ℝ) < 1/2 by norm_num) (0 + 1)
  simpa using this

theorem diamond_fwd2 : SoftSP.fwdTbl (1/2) diamondEdges 3 2 = .fin 3 := by
  rw [SoftSP.fwdTbl_stable (1/2) diamondEdges 3 2 2 (by omega) le_rfl,
    SoftSP.fwdTbl_succ, if_pos rfl]
  have hc : SoftSP.fwdCands diamondEdges (SoftSP.fwdTbl (1/2) diamondEdges 1) 2
      = [0 + 3] := by
    simp [SoftSP.fwdCands, diamondEdges, SoftSP.fwdTbl_succ,
      SoftSP.fwdTbl_zero, List.filter, List.filterMap]
  rw [hc, if_neg (by simp)]
  have := softmin_gamma_single (show (0:ℝ) < 1/2 by norm_num) (0 + 3)
  simpa using this

theorem diamond_fwd3 : SoftSP.fwdTbl (1/2) diamondEdges 3 3
    = .fin (-(1/2) * Real.log (Real.exp (-3 / (1/2)) + Real.exp (-7 / (1/2)))) := by
  rw [show (3 : ℕ) = 2 + 1 from rfl, SoftSP.fwdTbl_succ, if_pos rfl]
  have hc : SoftSP.fwdCands diamondEdges (SoftSP.fwdTbl (1/2) diamondEdges 2) 3
      = [1 + 2, 3 + 4] := by
    have h1 : SoftSP.fwdTbl (1/2) diamondEdges 2 1 = .fin 1 := by
      rw [← SoftSP.fwdTbl_stable (1/2) diamondEdges 3 2 1 (by omega) (by omega),
        diamond_fwd1]
    have h2 : SoftSP.fwdTbl (1/2) diamondEdges 2 2 = .fin 3 := by
      rw [← SoftSP.fwdTbl_stable (1/2) diamondEdges 3 2 2 (by omega) (by omega),
        diamond_fwd2]
    rw [(by norm_num : (1/2 : ℝ) = 2⁻¹)] at h1 h2
    simp only [diamondEdges] at h1 h2
    simp [SoftSP.fwdCands, diamondEdges, List.filter, List.filterMap, h1, h2]
  rw [hc, if_neg (by simp)]
  have := softmin_gamma_pair (show (0:ℝ) < 1/2 by norm_num) (1 + 2) (3 + 4)
  rw [show ([1 + 2, 3 + 4] : List ℝ).map F.fin = [F.fin (1 + 2), F.fin (3 + 4)]
    from rfl, this]
  norm_num

end DiamondEval

section DiamondBwd

theorem diamond_bwd3 : SoftSP.bwdTbl (1/2) 4 diamondEdges 3 3 = .fin 0 :=
  SoftSP.bwdTbl_sink (1/2) 4 diamondEdges (by norm_num) 3 (by norm_num)

theorem diamond_bwd2 : SoftSP.bwdTbl (1/2) 4 diamondEdges 3 2 = .fin 4 := by
  rw [SoftSP.bwdTbl_stable (1/2) 4 diamondEdges 3 1 2 (by omega) (by norm_num)
    (by norm_num)]
  rw [show (1 : ℕ) = 0 + 1 from rfl, SoftSP.bwdTbl_succ, if_pos (by norm_num)]
  have hc : SoftSP.bwdCands diamondEdges (SoftSP.bwdTbl (1/2) 4 diamondEdges 0)
      (4 - 1 - (0 + 1)) = [4 + 0] := by
    simp [SoftSP.bwdCands, diamondEdges, SoftSP.bwdTbl_zero, List.filter,
      List.filterMap]
  rw [hc, if_neg (by simp)]
  have := softmin_gamma_single (show (0:ℝ) < 1/2 by norm_num) (4 + 0)
  simpa using this

theorem diamond_bwd1 : SoftSP.bwdTbl (1/2) 4 diamondEdges 3 1 = .fin 2 := by
  rw [SoftSP.bwdTbl_stable (1/2) 4 diamondEdges 3 2 1 (by omega) (by norm_num)
    (by norm_num)]
  rw [show (2 : ℕ) = 1 + 1 from rfl, SoftSP.bwdTbl_succ, if_pos (by norm_num)]
  have hsink : SoftSP.bwdTbl (1/2) 4 diamondEdges 1 3 = .fin 0 :=
    SoftSP.bwdTbl_sink (1/2) 4 diamondEdges (by norm_num) 1 (by norm_num)
  have hc : SoftSP.bwdCands diamondEdges (SoftSP.bwdTbl (1/2) 4 diamondEdges 1)
      (4 - 1 - (1 + 1)) = [2 + 0] := by
    rw [(by norm_num : (1/2 : ℝ) = 2⁻¹)] at hsink
    simp only [diamondEdges] at hsink
    simp [SoftSP.bwdCands, diamondEdges, List.filter, List.filterMap, hsink]
  rw [hc, if_neg (by simp)]
  have := softmin_gamma_single (show (0:ℝ) < 1/2 by norm_num) (2 + 0)
  simpa using this

theorem diamond_bwd0 : SoftSP.bwdTbl (1/2) 4 diamondEdges 3 0
    = .fin (-(1/2) * Real.log (Real.exp (-3 / (1/2)) + Real.exp (-7 / (1/2)))) := by
  rw [show (3 : ℕ) = 2 + 1 from rfl, SoftSP.bwdTbl_succ, if_pos (by norm_num)]
  have h1 : SoftSP.bwdTbl (1/2) 4 diamondEdges 2 1 = .fin 2 := by
    rw [← SoftSP.bwdTbl_stable (1/2) 4 diamondEdges 3 2 1 (by omega)
      (by norm_num) (by norm_num)]
    exact diamond_bwd1
  have h2 : SoftSP.bwdTbl (1/2) 4 diamondEdges 2 2 = .fin 4 := by
    rw [SoftSP.bwdTbl_stable (1/2) 4 diamondEdges 2 1 2 (by omega) (by norm_num)
      (by norm_num),
      ← SoftSP.bwdTbl_stable (1/2) 4 diamondEdges 3 1 2 (by omega) (by norm_num)
      (by norm_num)]
    exact diamond_bwd2
  have hc : SoftSP.bwdCands diamondEdges (SoftSP.bwdTbl (1/2) 4 diamondEdges 2)
      (4 - 1 - (2 + 1)) = [1 + 2, 3 + 4] := by
    rw [(by norm_num : (1/2 : ℝ) = 2⁻¹)] at h1 h2
    simp only [diamondEdges] at h1 h2
    simp [SoftSP.bwdCands, diamondEdges, List.filter, List.filterMap, h1, h2]
  rw [hc, if_neg (by simp)]
  have := softmin_gamma_pair (show (0:ℝ) < 1/2 by norm_num) (1 + 2) (3 + 4)
  rw [show ([1 + 2, 3 + 4] : List ℝ).map F.fin = [F.fin (1 + 2), F.fin (3 + 4)]
    from rfl, this]
  norm_num

end DiamondBwd

section DiamondMarginals

theorem diamond_S_pos :
    (0:ℝ) < Real.exp (-3 / (1/2)) + Real.exp (-7 / (1/2)) := by positivity

theorem diamond_V_ge :
    (2:ℝ) ≤ -(1/2) * Real.log (Real.exp (-3 / (1/2)) + Real.exp (-7 / (1/2))) := by
  have hS := diamond_S_pos
  have hlog2 : Real.log 2 ≤ 1 := by
    have := Real.log_le_sub_one_of_pos (by norm_num : (0:ℝ) < 2)
    linarith
  have hSle : Real.exp (-3 / (1/2:ℝ)) + Real.exp (-7 / (1/2))
      ≤ 2 * Real.exp (-3 / (1/2)) := by
    have : Real.exp (-7 / (1/2:ℝ)) ≤ Real.exp (-3 / (1/2)) := by
      apply Real.exp_le_exp.mpr
      norm_num
    linarith
  have h2 : (0:ℝ) < 2 * Real.exp (-3 / (1/2)) := by positivity
  have hLle : Real.log (Real.exp (-3 / (1/2:ℝ)) + Real.exp (-7 / (1/2)))
      ≤ Real.log 2 + (-3 / (1/2:ℝ)) := by
    have := (Real.log_le_log_iff hS h2).mpr hSle
    rwa [Real.log_mul (by norm_num) (Real.exp_ne_zero _), Real.log_exp] at this
  nlinarith

theorem diamond_exp_eq (t : ℝ) :
    Real.exp (-((t - (-(1/2) * Real.log (Real.exp (-3 / (1/2:ℝ))
        + Real.exp (-7 / (1/2))))) / (1/2)))
      = Real.exp (-t / (1/2))
        / (Real.exp (-3 / (1/2)) + Real.exp (-7 / (1/2))) := by
  have hS := diamond_S_pos
  conv_rhs =>
    rw [div_eq_mul_inv,
      show (Real.exp (-3 / (1/2:ℝ)) + Real.exp (-7 / (1/2)))⁻¹
        = Real.exp (-(Real.log (Real.exp (-3 / (1/2:ℝ)) + Real.exp (-7 / (1/2)))))
      from by rw [Real.exp_neg, Real.exp_log hS],
      ← Real.exp_add]
  congr 1
  ring

theorem diamond_m0 : SoftSP.marginalOf (1/2) 4 diamondEdges
    (-(1/2) * Real.log (Real.exp (-3 / (1/2)) + Real.exp (-7 / (1/2))))
    ⟨0, 1, 1⟩
    = Real.exp (-3 / (1/2))
      / (Real.exp (-3 / (1/2)) + Real.exp (-7 / (1/2))) := by
  have hV := diamond_V_ge
  unfold SoftSP.marginalOf
  rw [show (4:ℕ) - 1 = 3 from rfl]
  dsimp only
  rw [diamond_fwd0, diamond_bwd1]
  dsimp only
  rw [if_neg (by push_neg; linarith)]
  rw [show -((0 + 1 + 2 - (-(1/2) * Real.log (Real.exp (-3 / (1/2:ℝ))
      + Real.exp (-7 / (1/2))))) / (1/2))
    = -((3 - (-(1/2) * Real.log (Real.exp (-3 / (1/2:ℝ))
      + Real.exp (-7 / (1/2))))) / (1/2)) from by ring]
  exact diamond_exp_eq 3

theorem diamond_m1 : SoftSP.marginalOf (1/2) 4 diamondEdges
    (-(1/2) * Real.log (Real.exp (-3 / (1/2)) + Real.exp (-7 / (1/2))))
    ⟨1, 3, 2⟩
    = Real.exp (-3 / (1/2))
      / (Real.exp (-3 / (1/2)) + Real.exp (-7 / (1/2))) := by
  have hV := diamond_V_ge
  unfold SoftSP.marginalOf
  rw [show (4:ℕ) - 1 = 3 from rfl]
  dsimp only
  rw [diamond_fwd1, diamond_bwd3]
  dsimp only
  rw [if_neg (by push_neg; linarith)]
  rw [show -((1 + 2 + 0 - (-(1/2) * Real.log (Real.exp (-3 / (1/2:ℝ))
      + Real.exp (-7 / (1/2))))) / (1/2))
    = -((3 - (-(1/2) * Real.log (Real.exp (-3 / (1/2:ℝ))
      + Real.exp (-7 / (1/2))))) / (1/2)) from by ring]
  exact diamond_exp_eq 3

theorem diamond_m2 : SoftSP.marginalOf (1/2) 4 diamondEdges
    (-(1/2) * Real.log (Real.exp (-3 / (1/2)) + Real.exp (-7 / (1/2))))
    ⟨0, 2, 3⟩
    = Real.exp (-7 / (1/2))
      / (Real.exp (-3 / (1/2)) + Real.exp (-7 / (1/2))) := by
  have hV := diamond_V_ge
  unfold SoftSP.marginalOf
  rw [show (4:ℕ) - 1 = 3 from rfl]
  dsimp only
  rw [diamond_fwd0, diamond_bwd2]
  dsimp only
  rw [if_neg (by push_neg; linarith)]
  rw [show -((0 + 3 + 4 - (-(1/2) * Real.log (Real.exp (-3 / (1/2:ℝ))
      + Real.exp (-7 / (1/2))))) / (1/2))
    = -((7 - (-(1/2) * Real.log (Real.exp (-3 / (1/2:ℝ))
      + Real.exp (-7 / (1/2))))) / (1/2)) from by ring]
  exact diamond_exp_eq 7

theorem diamond_m3 : SoftSP.marginalOf (1/2) 4 diamondEdges
    (-(1/2) * Real.log (Real.exp (-3 / (1/2)) + Real.exp (-7 / (1/2))))
    ⟨2, 3, 4⟩
    = Real.exp (-7 / (1/2))
      / (Real.exp (-3 / (1/2)) + Real.exp (-7 / (1/2))) := by
  have hV := diamond_V_ge
  unfold SoftSP.marginalOf
  rw [show (4:ℕ) - 1 = 3 from rfl]
  dsimp only
  rw [diamond_fwd2, diamond_bwd3]
  dsimp only
  rw [if_neg (by push_neg; linarith)]
  rw [show -((3 + 4 + 0 - (-(1/2) * Real.log (Real.exp (-3 / (1/2:ℝ))
      + Real.exp (-7 / (1/2))))) / (1/2))
    = -((7 - (-(1/2) * Real.log (Real.exp (-3 / (1/2:ℝ))
      + Real.exp (-7 / (1/2))))) / (1/2)) from by ring]
  exact diamond_exp_eq 7

theorem diamond_marginals_eval :
    SoftSP.soft_shortest_path_edge_marginals 4 diamondEdges (1/2)
      = .ok (-(1/2) * Real.log (Real.exp (-3 / (1/2)) + Real.exp (-7 / (1/2))),
        [Real.exp (-3 / (1/2)) / (Real.exp (-3 / (1/2)) + Real.exp (-7 / (1/2))),
         Real.exp (-3 / (1/2)) / (Real.exp (-3 / (1/2)) + Real.exp (-7 / (1/2))),
         Real.exp (-7 / (1/2)) / (Real.exp (-3 / (1/2)) + Real.exp (-7 / (1/2))),
         Real.exp (-7 / (1/2)) / (Real.exp (-3 / (1/2)) + Real.exp (-7 / (1/2)))]) := by
  rw [SoftSP.soft_shortest_path_edge_marginals, if_neg (by norm_num),
    diamond_validate]
  dsimp only
  rw [show (4:ℕ) - 1 = 3 from rfl, diamond_fwd3]
  dsimp only
  simp only [diamondEdges, List.map_cons, List.map_nil]
  rw [← show diamondEdges
    = [(⟨0, 1, 1⟩ : SoftSP.Edge), ⟨1, 3, 2⟩, ⟨0, 2, 3⟩, ⟨2, 3, 4⟩] from rfl]
  rw [diamond_m0, diamond_m1, diamond_m2, diamond_m3]

end DiamondMarginals

/-- Claim C4: on the diamond graph (edges `0→1` cost 1, `1→3` cost 2,
`0→2` cost 3, `2→3` cost 4) with `γ = 0.5`, the returned value is exactly
`-γ·ln(e^{-3/γ} + e^{-7/γ})`, the marginals at positions 0 and 1 are the
path-A probability `e^{-3/γ}/(e^{-3/γ}+e^{-7/γ})`, and positions 2 and 3 its
complement `e^{-7/γ}/(e^{-3/γ}+e^{-7/γ})`. -/
theorem claim4_diamond_exact :
    SoftSP.soft_shortest_path_edge_marginals 4 diamondEdges (1/2)
      = .ok (-(1/2) * Real.log (Real.exp (-3 / (1/2)) + Real.exp (-7 / (1/2))),
        [Real.exp (-3 / (1/2)) / (Real.exp (-3 / (1/2)) + Real.exp (-7 / (1/2))),
         Real.exp (-3 / (1/2)) / (Real.exp (-3 / (1/2)) + Real.exp (-7 / (1/2))),
         Real.exp (-7 / (1/2)) / (Real.exp (-3 / (1/2)) + Real.exp (-7 / (1/2))),
         Real.exp (-7 / (1/2)) / (Real.exp (-3 / (1/2)) + Real.exp (-7 / (1/2)))]) :=
  diamond_marginals_eval

theorem claim3_marginal_probabilities_witness :
    ∃ (v : ℝ) (p : List ℝ),
      SoftSP.soft_shortest_path_edge_marginals 4 diamondEdges (1/2) = .ok (v, p) ∧
      ((∀ k, k < p.length → 0 ≤ p.getD k 0 ∧ p.getD k 0 ≤ 1) ∧
        1 - (diamondEdges.length : ℝ) * Real.exp (-745)
          ≤ SoftSP.sourceSum diamondEdges p ∧
        SoftSP.sourceSum diamondEdges p ≤ 1) :=
  ⟨_, _, diamond_marginals_eval,
    claim3_marginal_probabilities diamond_marginals_eval⟩

namespace SoftSP

theorem validateFrom_notdag {n : ℕ} :
    ∀ (l : List Edge) (k0 k : ℕ), k < l.length →
      (∀ e ∈ l, e.efrom < n ∧ e.eto < n) →
      (∀ j, j < k → (l.getD j ⟨0, 0, 0⟩).efrom < (l.getD j ⟨0, 0, 0⟩).eto) →
      (l.getD k ⟨0, 0, 0⟩).eto ≤ (l.getD k ⟨0, 0, 0⟩).efrom →
      validateFrom n k0 l
        = .error (.notDagOrder (k0 + k) (l.getD k ⟨0, 0, 0⟩).efrom
            (l.getD k ⟨0, 0, 0⟩).eto) := by
  intro l
  induction l with
  | nil => intro k0 k hk; simp at hk
  | cons e rest ih =>
    intro k0 k hk hbounds horder hbad
    rw [validateFrom_cons,
      if_neg (by
        have := hbounds e (List.mem_cons_self _ _)
        omega)]
    cases k with
    | zero =>
      rw [List.getD_cons_zero] at hbad
      rw [if_pos (by omega)]
      rw [List.getD_cons_zero]
      rfl
    | succ j =>
      have hhead : e.efrom < e.eto := by
        have := horder 0 (by omega)
        rwa [List.getD_cons_zero] at this
      rw [if_neg (by omega)]
      rw [List.getD_cons_succ] at hbad ⊢
      have := ih (k0 + 1) j (by simpa using hk)
        (fun e' he' => hbounds e' (List.mem_cons_of_mem _ he'))
        (fun i hi => by
          have := horder (i + 1) (by omega)
          rwa [List.getD_cons_succ] at this)
        hbad
      rw [this, show k0 + 1 + j = k0 + (j + 1) from by omega]

theorem validate_notdag {n : ℕ} {edges : List Edge} (hn : 2 ≤ n) {k : ℕ}
    (hk : k < edges.length)
    (hbounds : ∀ e ∈ edges, e.efrom < n ∧ e.eto < n)
    (horder : ∀ j, j < k →
      (edges.getD j ⟨0, 0, 0⟩).efrom < (edges.getD j ⟨0, 0, 0⟩).eto)
    (hbad : (edges.getD k ⟨0, 0, 0⟩).eto ≤ (edges.getD k ⟨0, 0, 0⟩).efrom) :
    validate n edges
      = .error (.notDagOrder k (edges.getD k ⟨0, 0, 0⟩).efrom
          (edges.getD k ⟨0, 0, 0⟩).eto) := by
  rw [validate, if_neg (by omega)]
  have := validateFrom_notdag edges 0 k hk hbounds horder hbad
  rwa [Nat.zero_add] at this

end SoftSP

/-- Claim C9 (amended): if all edge endpoints are in bounds and the first
edge violating any check is edge `k` with `from ≥ to`, then both
`soft_shortest_path_value` and `soft_shortest_path_edge_marginals` return the
non-dag-order error carrying that edge's index and endpoints (an error
constructor distinct from the out-of-bounds one). The original claim, which
did not require earlier edges to be clean, fails: an earlier out-of-bounds
edge is reported first. -/
theorem claim9_notdag_error (γ : ℝ) (hγ : 0 < γ) (n : ℕ)
    (edges : List SoftSP.Edge) (hn : 2 ≤ n) (k : ℕ) (hk : k < edges.length)
    (hbounds : ∀ e ∈ edges, e.efrom < n ∧ e.eto < n)
    (horder : ∀ j, j < k →
      (edges.getD j ⟨0, 0, 0⟩).efrom < (edges.getD j ⟨0, 0, 0⟩).eto)
    (hbad : (edges.getD k ⟨0, 0, 0⟩).eto ≤ (edges.getD k ⟨0, 0, 0⟩).efrom) :
    SoftSP.soft_shortest_path_value n edges γ
      = .error (.notDagOrder k (edges.getD k ⟨0, 0, 0⟩).efrom
          (edges.getD k ⟨0, 0, 0⟩).eto) ∧
    SoftSP.soft_shortest_path_edge_marginals n edges γ
      = .error (.notDagOrder k (edges.getD k ⟨0, 0, 0⟩).efrom
          (edges.getD k ⟨0, 0, 0⟩).eto) := by
  have hval := SoftSP.validate_notdag hn hk hbounds horder hbad
  constructor
  · rw [SoftSP.soft_shortest_path_value, if_neg (not_le.mpr hγ), hval]
  · rw [SoftSP.soft_shortest_path_edge_marginals, if_neg (not_le.mpr hγ), hval]

theorem claim9_notdag_error_witness :
    SoftSP.soft_shortest_path_value 3 [⟨2, 1, 0⟩] 1
      = .error (.notDagOrder 0 2 1) ∧
    SoftSP.soft_shortest_path_edge_marginals 3 [⟨2, 1, 0⟩] 1
      = .error (.notDagOrder 0 2 1) := by
  have := claim9_notdag_error 1 (by norm_num) 3 [⟨2, 1, 0⟩] (by norm_num) 0
    (by norm_num)
    (by
      intro e he
      simp only [List.mem_singleton] at he
      subst he
      exact ⟨by norm_num, by norm_num⟩)
    (by intro j hj; omega)
    (by simp [List.getD])
  simpa using this

/-- Claim C9 counterexample: with `n = 3` and the edge list
`[(0→3), (2→1)]`, edge 1 has both endpoints in `[0, 3)` and `from ≥ to`, yet
the function reports the out-of-bounds error for the earlier edge 0, not the
non-dag-order error for edge 1. -/
theorem claim9_counterexample :
    SoftSP.soft_shortest_path_value 3 [⟨0, 3, 0⟩, ⟨2, 1, 0⟩] 1
      = .error (.edgeOutOfBounds 0 0 3 3) ∧
    SoftSP.soft_shortest_path_value 3 [⟨0, 3, 0⟩, ⟨2, 1, 0⟩] 1
      ≠ .error (.notDagOrder 1 2 1) ∧
    ((2:ℕ) < 3 ∧ (1:ℕ) < 3 ∧ (1:ℕ) ≤ 2) := by
  have h1 : SoftSP.soft_shortest_path_value 3 [⟨0, 3, 0⟩, ⟨2, 1, 0⟩] 1
      = .error (.edgeOutOfBounds 0 0 3 3) := by
    rw [SoftSP.soft_shortest_path_value, if_neg (by norm_num)]
    rfl
  refine ⟨h1, ?_, by norm_num⟩
  intro h2
  rw [h1] at h2
  simp at h2
